import Mathlib

/-!
Shallow embedding of the nestk mesh module (`src/ntk/mesh/mesh.cpp`) and of
the collaborators it uses that are declared outside the sources
(`mesh.h` accessors, `ntk::normalize`, `orthogonal_basis`,
`Plane::intersectionWithLine`, `infinite_point`), the latter modelled from
the specification.

`float` values are modelled as `Option ℚ`: `none` stands for NaN, `some q`
for a finite value.  Arithmetic propagates NaN; the C++ `==` on floats
treats NaN as unequal to everything, including itself.  Machine `int` face
indices are modelled as `Int` (the `-1` marker written by the compaction
pass is a genuine value there).
-/

set_option maxHeartbeats 1000000

namespace Nestk

/-- A `float` value: `none` is NaN, `some q` a finite value. -/
abbrev F := Option ℚ

/-- Float addition, NaN propagating. -/
def fadd : F → F → F
  | some a, some b => some (a + b)
  | _, _ => none

/-- Float subtraction, NaN propagating. -/
def fsub : F → F → F
  | some a, some b => some (a - b)
  | _, _ => none

/-- Float multiplication, NaN propagating. -/
def fmul : F → F → F
  | some a, some b => some (a * b)
  | _, _ => none

/-- Float negation, NaN propagating. -/
def fneg : F → F
  | some a => some (-a)
  | none => none

/-- C++ float `==`: NaN is unequal to everything, including itself. -/
def feq : F → F → Bool
  | some a, some b => decide (a = b)
  | _, _ => false

/-- `ntk::math::isnan` on one coordinate. -/
def fisnan : F → Bool
  | none => true
  | some _ => false

/-- The `isnan(x) ? 0 : x` substitution performed on normals by the PLY
writer (`mesh.cpp:185-187`). -/
def nanToZero : F → F
  | none => some 0
  | some q => some q

/-- Strict order on float values used by the vertex-sort comparator.
Modelled from the spec: the comparator is lexicographic with exact
floating-point comparison (the `operator<` on `cv::Point3f` comes from
`opencv_utils.h`, which is not part of the sources).  To make it a total
order we let NaN sort before every finite value; on finite values this is
exactly the float `<`. -/
def fltTotal : F → F → Bool
  | none, none => false
  | none, some _ => true
  | some _, none => false
  | some a, some b => decide (a < b)

/-- A 3D point / vector (`cv::Point3f`, `cv::Vec3f`). -/
structure Pt3 where
  x : F
  y : F
  z : F
  deriving DecidableEq

/-- A finite point literal. -/
def pt3 (a b c : ℚ) : Pt3 := ⟨some a, some b, some c⟩

/-- The zero vector `Vec3f(0,0,0)`. -/
def ptZero : Pt3 := ⟨some 0, some 0, some 0⟩

/-- Componentwise vector addition. -/
def ptAdd (p q : Pt3) : Pt3 := ⟨fadd p.x q.x, fadd p.y q.y, fadd p.z q.z⟩

/-- Componentwise vector subtraction. -/
def ptSub (p q : Pt3) : Pt3 := ⟨fsub p.x q.x, fsub p.y q.y, fsub p.z q.z⟩

/-- Scaling a vector by a float (`Vec3f * float`). -/
def ptScale (c : F) (p : Pt3) : Pt3 := ⟨fmul p.x c, fmul p.y c, fmul p.z c⟩

/-- Cross product `Vec3f::cross` (`mesh.cpp:637`). -/
def ptCross (u v : Pt3) : Pt3 :=
  ⟨fsub (fmul u.y v.z) (fmul u.z v.y),
   fsub (fmul u.z v.x) (fmul u.x v.z),
   fsub (fmul u.x v.y) (fmul u.y v.x)⟩

/-- Modelled from the spec: `infinite_point()` (declared in a header that is
not part of the sources) returns the sentinel "invalid position" whose
coordinates are all non-finite, and which the compaction pass detects with
`isnan`. -/
def infinite_point : Pt3 := ⟨none, none, none⟩

/-- Modelled from the spec: `ntk::isnan` on a point — the position is
non-finite when some coordinate is NaN.  The sentinel has all coordinates
NaN, so it is detected under either reading. -/
def ptIsNan (p : Pt3) : Bool := fisnan p.x || fisnan p.y || fisnan p.z

/-- `cv::Point3f operator==`: componentwise float equality (NaN unequal). -/
def ptEqF (p q : Pt3) : Bool := feq p.x q.x && feq p.y q.y && feq p.z q.z

/-- Lexicographic strict order on points (x, then y, then z), exact
comparison; the `VertexComparator` of `mesh.cpp:662-672`. -/
def ptLtLex (p q : Pt3) : Bool :=
  fltTotal p.x q.x ||
    (decide (p.x = q.x) && (fltTotal p.y q.y ||
      (decide (p.y = q.y) && fltTotal p.z q.z)))

/-- Reflexive closure of `ptLtLex`, used as the sorting relation. -/
def ptLeLex (p q : Pt3) : Bool := ptLtLex p q || decide (p = q)

/-- An RGB color triple (`cv::Vec3b`); components are byte values,
accessed as `[0]`, `[1]`, `[2]` in the source. -/
structure C3b where
  c0 : Nat
  c1 : Nat
  c2 : Nat
  deriving DecidableEq

/-- The zero color. -/
def c3bZero : C3b := ⟨0, 0, 0⟩

/-- A 2D texture coordinate (`cv::Point2f`). -/
structure Pt2 where
  x : F
  y : F
  deriving DecidableEq

/-- The zero texcoord. -/
def pt2Zero : Pt2 := ⟨some 0, some 0⟩

/-- `ntk::Face` (from `mesh.h`, which is not part of the sources): exactly
3 vertex indices of C++ type `int`; `numVertices()` returns 3. -/
structure Face where
  i0 : Int
  i1 : Int
  i2 : Int
  deriving DecidableEq

/-- The three indices of a face, in slot order. -/
def Face.indicesList (f : Face) : List Int := [f.i0, f.i1, f.i2]

/-- A zero face used as an out-of-range default. -/
def faceZero : Face := ⟨0, 0, 0⟩

/-- Per-face wedge texture coordinates (`face_texcoords[i].u[j]`,
`.v[j]`). -/
structure FaceTexcoord where
  u0 : F
  u1 : F
  u2 : F
  v0 : F
  v1 : F
  v2 : F
  deriving DecidableEq

/-- A surfel: disc-like point sample (external input to the builders). -/
structure Surfel where
  location : Pt3
  normal : Pt3
  radius : F
  color : C3b
  deriving DecidableEq

/-- The mesh aggregate (`ntk::Mesh`).  The raster texture image is
modelled by its presence only (`texture.data` non-null). -/
@[ext]
structure Mesh where
  vertices : List Pt3
  colors : List C3b
  normals : List Pt3
  texcoords : List Pt2
  faces : List Face
  face_texcoords : List FaceTexcoord
  texture : Bool
  deriving DecidableEq

/-- The empty mesh. -/
def emptyMesh : Mesh := ⟨[], [], [], [], [], [], false⟩

/-- Modelled from the spec (§9, presence-as-array-length convention;
`mesh.h` is not part of the sources): colors are present iff the array
length equals the vertex count. -/
def Mesh.hasColors (m : Mesh) : Bool := decide (m.colors.length = m.vertices.length)

/-- Modelled from the spec: normals presence, same convention. -/
def Mesh.hasNormals (m : Mesh) : Bool := decide (m.normals.length = m.vertices.length)

/-- Modelled from the spec: per-vertex texcoords presence, same
convention. -/
def Mesh.hasTexcoords (m : Mesh) : Bool := decide (m.texcoords.length = m.vertices.length)

/-- Modelled from the spec: wedge texcoords presence (per-face array). -/
def Mesh.hasFaceTexcoords (m : Mesh) : Bool := decide (m.face_texcoords.length = m.faces.length)

/-- Modelled from the spec: a mesh has faces iff the face list is
non-empty. -/
def Mesh.hasFaces (m : Mesh) : Bool := decide (m.faces.length ≠ 0)

/-- Vertex index `i` is referenced by some face of `m`. -/
def Referenced (m : Mesh) (i : Nat) : Prop :=
  ∃ f ∈ m.faces, (i : Int) ∈ f.indicesList

instance (m : Mesh) (i : Nat) : Decidable (Referenced m i) := by
  unfold Referenced; infer_instance

/-! ## PLY codec (`saveToPlyFile` / `loadFromPlyFile`)

The low-level PLY tokenizer is an external collaborator (spec §1, §6): the
file is modelled at the level of the element records it exchanges — one
record per `vertex` element carrying every field of the C struct
`PlyVertex`, plus header flags telling which properties are declared, and
one record per `face` element.  Fields that the writer does not emit (the
header does not declare them) are stored as defaults; the loader never
reads an undeclared field. -/

/-- The record exchanged for one `vertex` element (C struct `PlyVertex`). -/
structure PlyVertexRec where
  x : F
  y : F
  z : F
  nx : F
  ny : F
  nz : F
  u : F
  v : F
  r : Nat
  g : Nat
  b : Nat
  deriving DecidableEq

/-- The record exchanged for one `face` element (C struct `PlyFace`):
the count-prefixed vertex index list, and the optional per-face
`texcoord` float list. -/
structure PlyFaceRec where
  verts : List Int
  texcoord : Option (List F)
  deriving DecidableEq

/-- A PLY file, abstracted to header property flags plus element
records. -/
structure PlyData where
  normalsProp : Bool
  texcoordsProp : Bool
  colorsProp : Bool
  verts : List PlyVertexRec
  faceElem : Option (List PlyFaceRec)
  deriving DecidableEq

/-- One vertex body line of the writer (`mesh.cpp:180-198`): position,
then conditionally the normal with each NaN coordinate replaced by 0,
the texcoord, and the color cast to integer (identity on byte values).
Undeclared fields are defaulted; the file does not contain them. -/
def saveVertexRec (m : Mesh) (i : Nat) : PlyVertexRec :=
  let p := m.vertices.getD i ptZero
  let n := m.normals.getD i ptZero
  let t := m.texcoords.getD i pt2Zero
  let c := m.colors.getD i c3bZero
  { x := p.x, y := p.y, z := p.z
    nx := if m.hasNormals then nanToZero n.x else some 0
    ny := if m.hasNormals then nanToZero n.y else some 0
    nz := if m.hasNormals then nanToZero n.z else some 0
    u := if m.hasTexcoords then t.x else some 0
    v := if m.hasTexcoords then t.y else some 0
    r := if m.hasColors then c.c0 else 0
    g := if m.hasColors then c.c1 else 0
    b := if m.hasColors then c.c2 else 0 }

/-- One face body line of the writer (`mesh.cpp:200-228`): the 3 indices,
then when texture coordinates exist the 6-float `texcoord` list with the
v axis flipped (`1 - v`). -/
def saveFaceRec (m : Mesh) (i : Nat) : PlyFaceRec :=
  let f := m.faces.getD i faceZero
  let texOf : Int → Pt2 := fun idx => m.texcoords.getD idx.toNat pt2Zero
  { verts := f.indicesList
    texcoord :=
      if m.hasTexcoords && !m.hasFaceTexcoords then
        some [(texOf f.i0).x, fsub (some 1) (texOf f.i0).y,
              (texOf f.i1).x, fsub (some 1) (texOf f.i1).y,
              (texOf f.i2).x, fsub (some 1) (texOf f.i2).y]
      else if m.hasFaceTexcoords then
        some ((fun w => [w.u0, fsub (some 1) w.v0, w.u1, fsub (some 1) w.v1,
                         w.u2, fsub (some 1) w.v2])
              (m.face_texcoords.getD i ⟨some 0, some 0, some 0, some 0, some 0, some 0⟩))
      else none }

/-- `Mesh::saveToPlyFile` (`mesh.cpp:122-231`), abstracted to the data it
writes: header flags follow attribute presence; the `face` element is
declared only when faces exist.  (The sidecar texture PNG is out of
scope.) -/
def saveToPlyFile (m : Mesh) : PlyData :=
  { normalsProp := m.hasNormals
    texcoordsProp := m.hasTexcoords
    colorsProp := m.hasColors
    verts := (List.range m.vertices.length).map (saveVertexRec m)
    faceElem :=
      if m.hasFaces then some ((List.range m.faces.length).map (saveFaceRec m))
      else none }

/-- Conversion of one face record: `ntk_ensure(f.nverts == 3, "Only
triangles are supported.")` then copy of the 3 indices
(`mesh.cpp:349-355`).  `none` is the fatal error. -/
def toFace? : List Int → Option Face
  | [a, b, c] => some ⟨a, b, c⟩
  | _ => none

/-- Conversion of the whole face element; any non-triangle aborts the
load. -/
def toFaces? : List PlyFaceRec → Option (List Face)
  | [] => some []
  | fr :: t =>
    match toFace? fr.verts, toFaces? t with
    | some f, some fs => some (f :: fs)
    | _, _ => none

/-- `Mesh::loadFromPlyFile` (`mesh.cpp:233-358`): clears the geometry
arrays (but not `face_texcoords` nor `texture`), reads the vertex element
(normals / colors only when their header properties are declared; the s/t
texcoords are read into the record but never stored in the mesh), then the
face element.  The per-face `texcoord` list is read and discarded.  A face
with a vertex count other than 3 is a fatal error (`none`).  File-open and
parse failures of the external reader are out of scope. -/
def loadFromPlyFile (d : PlyData) (m : Mesh) : Option Mesh :=
  let vertices := d.verts.map (fun v => Pt3.mk v.x v.y v.z)
  let colors := if d.colorsProp then d.verts.map (fun v => C3b.mk v.r v.g v.b) else []
  let normals := if d.normalsProp then d.verts.map (fun v => Pt3.mk v.nx v.ny v.nz) else []
  match d.faceElem with
  | none =>
    some { m with vertices := vertices, colors := colors, normals := normals,
                  texcoords := [], faces := [] }
  | some frs =>
    match toFaces? frs with
    | none => none
    | some fs =>
      some { m with vertices := vertices, colors := colors, normals := normals,
                    texcoords := [], faces := fs }

/-! ## Normal estimation (`computeNormalsFromFaces`) -/

/-- Add a vector into the accumulator at position `i`
(`normals[face.indices[k]] += n`; out-of-range writes do not occur on
valid meshes — `List.set` ignores them). -/
def listAddAt (l : List Pt3) (i : Nat) (p : Pt3) : List Pt3 :=
  l.set i (ptAdd (l.getD i ptZero) p)

/-- The un-normalized face normal `(v1 - v0) × (v2 - v0)`
(`mesh.cpp:635-637`). -/
def faceCross (vs : List Pt3) (f : Face) : Pt3 :=
  ptCross (ptSub (vs.getD f.i1.toNat ptZero) (vs.getD f.i0.toNat ptZero))
          (ptSub (vs.getD f.i2.toNat ptZero) (vs.getD f.i0.toNat ptZero))

/-- Processing of one face: its cross product is added to the
accumulators of its 3 vertices, in slot order. -/
def accumStep (vs : List Pt3) (ns : List Pt3) (f : Face) : List Pt3 :=
  let n := faceCross vs f
  listAddAt (listAddAt (listAddAt ns f.i0.toNat n) f.i1.toNat n) f.i2.toNat n

/-- The per-vertex accumulators after all faces are processed, starting
from zero vectors (`mesh.cpp:630-640`). -/
def normalAccums (m : Mesh) : List Pt3 :=
  m.faces.foldl (accumStep m.vertices) (List.replicate m.vertices.length ptZero)

/-- `Mesh::computeNormalsFromFaces` (`mesh.cpp:628-648`).  The final
per-vertex normalization calls `ntk::normalize`, an external collaborator
(its header is not part of the sources); it is passed as the `normalize`
parameter, constrained in the theorems by its spec (unit-length scaling,
zero vector kept). -/
def computeNormalsFromFaces (normalize : Pt3 → Pt3) (m : Mesh) : Mesh :=
  { m with normals := (normalAccums m).map normalize }

/-- Squared euclidean norm of a vector, NaN propagating. -/
def ptNormSq (p : Pt3) : F :=
  fadd (fadd (fmul p.x p.x) (fmul p.y p.y)) (fmul p.z p.z)

/-- Per-slot contribution of one face to vertex `i`: the face's cross
product once for each of its 3 slots holding `i` (stated independently of
the accumulation loop, for the characterization theorem). -/
def faceContrib (vs : List Pt3) (i : Nat) (f : Face) : Pt3 :=
  let n := faceCross vs f
  ptAdd (ptAdd (if (i : Int) = f.i0 then n else ptZero)
               (if (i : Int) = f.i1 then n else ptZero))
        (if (i : Int) = f.i2 then n else ptZero)

/-- Specification accumulator for vertex `i`: the sum over all faces of
their contributions. -/
def accumOf (m : Mesh) (i : Nat) : Pt3 :=
  m.faces.foldl (fun acc f => ptAdd acc (faceContrib m.vertices i f)) ptZero

/-! ## Procedural builders and merge -/

/-- `Mesh::addPointFromSurfel` (`mesh.cpp:370-375`): pushes the location,
color and normal unconditionally. -/
def addPointFromSurfel (m : Mesh) (s : Surfel) : Mesh :=
  { m with vertices := m.vertices ++ [s.location],
           colors := m.colors ++ [s.color],
           normals := m.normals ++ [s.normal] }

/-- `Mesh::addSurfel` (`mesh.cpp:377-435`): hexagonal disc splat.
`orthogonal_basis` is an external collaborator (header not in the
sources), passed as the `basis` parameter; the `ntk_assert` on the normal
is a debug assertion with no state effect. -/
def addSurfel (basis : Pt3 → Pt3 × Pt3) (m : Mesh) (s : Surfel) : Mesh :=
  let idx : Int := (m.vertices.length : Int)
  let v1 := (basis s.normal).1
  let v2 := (basis s.normal).2
  let rHalf := fmul s.radius (some (1/2))
  let p0 := ptAdd s.location (ptScale s.radius v1)
  let p1 := ptAdd s.location (ptAdd (ptScale rHalf v1) (ptScale s.radius v2))
  let p2 := ptAdd s.location (ptAdd (ptScale (fneg rHalf) v1) (ptScale s.radius v2))
  let p3 := ptAdd s.location (ptScale (fneg s.radius) v1)
  let p4 := ptAdd s.location (ptAdd (ptScale (fneg rHalf) v1) (ptScale (fneg s.radius) v2))
  let p5 := ptAdd s.location (ptAdd (ptScale rHalf v1) (ptScale (fneg s.radius) v2))
  { m with
    vertices := m.vertices ++ [p0, p1, p2, p3, p4, p5],
    colors := m.colors ++ List.replicate 6 s.color,
    normals := m.normals ++ List.replicate 6 s.normal,
    faces := m.faces ++ [⟨idx + 5, idx + 0, idx + 1⟩, ⟨idx + 5, idx + 1, idx + 2⟩,
                         ⟨idx + 4, idx + 5, idx + 2⟩, ⟨idx + 4, idx + 2, idx + 3⟩] }

/-- The fixed 12-triangle index pattern shared by the cube builders. -/
def cubeLinks : List (Int × Int × Int) :=
  [(0, 1, 3), (0, 3, 2), (0, 5, 1), (0, 4, 5), (3, 1, 5), (3, 5, 7),
   (2, 3, 7), (2, 7, 6), (6, 5, 4), (6, 7, 5), (0, 2, 6), (0, 6, 4)]

/-- The 8 corners pushed by `addCube`, in the source's `(i, j, k)` loop
order (`mesh.cpp:560-568`). -/
def cubeCorners (center sizes : Pt3) : List Pt3 :=
  let x0 := fsub center.x (fmul sizes.x (some (1/2)))
  let x1 := fadd center.x (fmul sizes.x (some (1/2)))
  let y0 := fsub center.y (fmul sizes.y (some (1/2)))
  let y1 := fadd center.y (fmul sizes.y (some (1/2)))
  let z0 := fsub center.z (fmul sizes.z (some (1/2)))
  let z1 := fadd center.z (fmul sizes.z (some (1/2)))
  [⟨x0, y0, z0⟩, ⟨x0, y0, z1⟩, ⟨x0, y1, z0⟩, ⟨x0, y1, z1⟩,
   ⟨x1, y0, z0⟩, ⟨x1, y0, z1⟩, ⟨x1, y1, z0⟩, ⟨x1, y1, z1⟩]

/-- `Mesh::addCube` (`mesh.cpp:530-579`): colors presence is checked
before pushing; face indices are offset by the prior vertex count. -/
def addCube (m : Mesh) (center sizes : Pt3) (color : C3b) : Mesh :=
  let has_colors := m.hasColors
  let fvi : Int := (m.vertices.length : Int)
  { m with
    vertices := m.vertices ++ cubeCorners center sizes,
    colors := if has_colors then m.colors ++ List.replicate 8 color else m.colors,
    faces := m.faces ++ cubeLinks.map (fun t => ⟨fvi + t.1, fvi + t.2.1, fvi + t.2.2⟩) }

/-- `Mesh::addMesh` (`mesh.cpp:581-615`).  `none` models the
`ntk_throw_exception_if` fatal error ("Cannot merge different kind of
meshes.").  Faithful to the source's evaluation order: `has_colors` is
read before the vertex arrays are extended (comment at `mesh.cpp:589`),
but `has_normals` is read only after (`mesh.cpp:600`), so it compares
`normals.size()` against the already-extended vertex count. -/
def addMesh (m rhs : Mesh) : Option Mesh :=
  if m.vertices.length < 1 then some rhs
  else
    let has_colors := m.hasColors
    let offset : Int := (m.vertices.length : Int)
    let vertices1 := m.vertices ++ rhs.vertices
    if has_colors && !rhs.hasColors then none
    else
      let colors1 := if has_colors then m.colors ++ rhs.colors else m.colors
      let has_normals := decide (m.normals.length = vertices1.length)
      if has_normals && !rhs.hasNormals then none
      else
        let normals1 := if has_normals then m.normals ++ rhs.normals else m.normals
        some { m with
               vertices := vertices1, colors := colors1, normals := normals1,
               faces := m.faces ++ rhs.faces.map
                 (fun f => ⟨f.i0 + offset, f.i1 + offset, f.i2 + offset⟩) }

/-- `generate_mesh_from_plane` (`mesh.cpp:438-474`).
`Plane::intersectionWithLine` is an external collaborator (spec §6); it is
passed, with the plane already applied, as the `intersect` parameter.  The
two faces use the constant index triples `(0,1,2)` and `(2,1,3)` with no
offset by the prior vertex count. -/
def generate_mesh_from_plane (intersect : Pt3 → Pt3 → Pt3) (m : Mesh)
    (center : Pt3) (plane_size : F) : Mesh :=
  let xm := fsub center.x plane_size
  let xp := fadd center.x plane_size
  let ym := fsub center.y plane_size
  let yp := fadd center.y plane_size
  let zm := fsub center.z plane_size
  let zp := fadd center.z plane_size
  let p1 := intersect ⟨xm, ym, zm⟩ ⟨xm, yp, zm⟩
  let p2 := intersect ⟨xp, ym, zm⟩ ⟨xp, yp, zm⟩
  let p3 := intersect ⟨xm, ym, zp⟩ ⟨xm, yp, zp⟩
  let p4 := intersect ⟨xp, ym, zp⟩ ⟨xp, yp, zp⟩
  { m with vertices := m.vertices ++ [p1, p2, p3, p4],
           faces := m.faces ++ [⟨0, 1, 2⟩, ⟨2, 1, 3⟩] }

/-! ## Vertex deduplication (`removeDuplicatedVertices`) -/

/-- The sort relation on vertex indices (`VertexComparator`,
`mesh.cpp:662-672`), as a reflexive total order. -/
def vertexLe (vs : List Pt3) (i j : Nat) : Prop :=
  ptLeLex (vs.getD i ptZero) (vs.getD j ptZero) = true

instance (vs : List Pt3) : DecidableRel (vertexLe vs) := fun _ _ =>
  inferInstanceAs (Decidable (_ = true))

/-- The index permutation sorted by vertex position
(`mesh.cpp:676-680`).  `std::sort`'s algorithm is unspecified; any sort by
this total order is a faithful model (which duplicate of a run becomes
canonical is likewise unspecified in the source). -/
def orderedIndices (vs : List Pt3) : List Nat :=
  List.insertionSort (vertexLe vs) (List.range vs.length)

/-- The scan over the sorted order (`mesh.cpp:684-696`), threading the
vertex array state: while the run head `a` has the same position (float
`==`) as the next sorted index `j`, record `j ↦ a` in the alias map and
overwrite vertex `j` with the sentinel.  A single trailing index does
nothing (the C++ guard is `i < size-1`); for an empty index list the C++
guard underflows (`size_t` `0-1`) and the loop spins without touching any
state until the `int` counter wraps — observably a no-op, modelled as an
immediate return. -/
def dedupGo (a : Nat) : List Nat → List Pt3 → List (Nat × Nat) → List Pt3 × List (Nat × Nat)
  | [], vs, al => (vs, al)
  | j :: rest, vs, al =>
    if ptEqF (vs.getD a ptZero) (vs.getD j ptZero) then
      dedupGo a rest (vs.set j infinite_point) ((j, a) :: al)
    else
      dedupGo j rest vs al

/-- The scan entry point: an empty index list does nothing. -/
def dedupScan : List Nat → List Pt3 → List (Nat × Nat) → List Pt3 × List (Nat × Nat)
  | [], vs, al => (vs, al)
  | a :: rest, vs, al => dedupGo a rest vs al

/-- The scan, state and alias map of the deduplication pass on a mesh. -/
def dedupResult (m : Mesh) : List Pt3 × List (Nat × Nat) :=
  dedupScan (orderedIndices m.vertices) m.vertices []

/-- The alias map (`std::map<int,int> vertex_alias`) built by the pass:
duplicate index to canonical index.  Keys are pairwise distinct, so the
association-list lookup models the map lookup. -/
def dedupAliasMap (m : Mesh) : List (Nat × Nat) := (dedupResult m).2

/-- Rewriting of one face index through the alias map
(`mesh.cpp:698-708`): indices found in the map are replaced by their
canonical index, others are left untouched.  Scan keys are natural
numbers, so a negative index is never found. -/
def rewriteIdx (al : List (Nat × Nat)) (idx : Int) : Int :=
  if idx < 0 then idx
  else
    match al.lookup idx.toNat with
    | some c => (c : Int)
    | none => idx

/-- Rewriting of the three indices of a face. -/
def rewriteFace (al : List (Nat × Nat)) (f : Face) : Face :=
  ⟨rewriteIdx al f.i0, rewriteIdx al f.i1, rewriteIdx al f.i2⟩

/-- `Mesh::removeDuplicatedVertices` (`mesh.cpp:674-709`). -/
def removeDuplicatedVertices (m : Mesh) : Mesh :=
  let r := dedupResult m
  { m with vertices := r.1, faces := m.faces.map (rewriteFace r.2) }

/-! ## Isolated-vertex compaction (`removeIsolatedVertices`) -/

/-- A vertex survives the compaction iff its position is not NaN
(`mesh.cpp:715-726`). -/
def keepVertex (p : Pt3) : Bool := !ptIsNan p

/-- The number of surviving vertices (`cur_index` after the first
loop). -/
def survivorCount (vs : List Pt3) : Nat := vs.countP keepVertex

/-- `new_indices[i]`: `-1` for a dropped vertex, else its dense output
index (the number of survivors before it). -/
def newIndexOf (vs : List Pt3) (i : Nat) : Int :=
  if ptIsNan (vs.getD i ptZero) then -1
  else ((vs.take i).countP keepVertex : Int)

/-- Compaction of a parallel attribute array: keep the entries whose
vertex survives, in order.  (The source scatters entry `i` to slot
`new_indices[i]`; as `new_indices` is strictly increasing on survivors
this is the same list.) -/
def compactAttr {α : Type} (vs : List Pt3) (xs : List α) : List α :=
  ((vs.zip xs).filter (fun p => keepVertex p.1)).map Prod.snd

/-- Rewriting of one face index through `new_indices`
(`mesh.cpp:750-757`).  The source reads `new_indices[old_index]` without
a bounds check; an out-of-range index (possible only on meshes that
violate the face-validity invariant) is an out-of-bounds read there and is
modelled as `-1`. -/
def remapFaceIndex (vs : List Pt3) (idx : Int) : Int :=
  if 0 ≤ idx ∧ idx.toNat < vs.length then newIndexOf vs idx.toNat else -1

/-- `Mesh::removeIsolatedVertices` (`mesh.cpp:711-763`): drops NaN
vertices, compacts the attribute arrays that are present (an absent
attribute array comes back empty), and rewrites every face index through
the old-to-new map.  `face_texcoords` and `texture` are untouched. -/
def removeIsolatedVertices (m : Mesh) : Mesh :=
  { m with
    vertices := m.vertices.filter keepVertex,
    colors := if m.hasColors then compactAttr m.vertices m.colors else [],
    normals := if m.hasNormals then compactAttr m.vertices m.normals else [],
    texcoords := if m.hasTexcoords then compactAttr m.vertices m.texcoords else [],
    faces := m.faces.map (fun f =>
      ⟨remapFaceIndex m.vertices f.i0, remapFaceIndex m.vertices f.i1,
       remapFaceIndex m.vertices f.i2⟩) }

/-- The two-phase cleanup: deduplication followed by compaction. -/
def cleanup (m : Mesh) : Mesh := removeIsolatedVertices (removeDuplicatedVertices m)

/-- Pure (stateless) version of `dedupGo`, reading positions through a
fixed function: used to reason about the scan, whose in-place sentinel
writes never touch a position it still reads. -/
def pureGo (pos : Nat → Pt3) (a : Nat) : List Nat → List (Nat × Nat)
  | [] => []
  | j :: rest =>
    if ptEqF (pos a) (pos j) then (j, a) :: pureGo pos a rest
    else pureGo pos j rest

/-- Pure version of `dedupScan`. -/
def pureScan (pos : Nat → Pt3) : List Nat → List (Nat × Nat)
  | [] => []
  | a :: rest => pureGo pos a rest

/-- Overwriting a set of vertex positions with the sentinel, in order. -/
def sentinelize (ks : List Nat) (vs : List Pt3) : List Pt3 :=
  ks.foldl (fun s k => s.set k infinite_point) vs

/-- The duplicate (key) side of an alias list. -/
def aliasKeys (al : List (Nat × Nat)) : List Nat := al.map Prod.fst

/-- The position of a vertex index in a mesh (the fixed function through
which the pure scan reads positions). -/
def meshPos (m : Mesh) : Nat → Pt3 := fun k => m.vertices.getD k ptZero

/-- The alias pairs of the deduplication pass of a mesh, in consumption
order. -/
def meshAliases (m : Mesh) : List (Nat × Nat) :=
  pureScan (meshPos m) (orderedIndices m.vertices)

/-- The per-vertex length invariant (spec §3): every optional per-vertex
array, when non-empty, has length exactly `vertices.length`. -/
def MeshInv (m : Mesh) : Prop :=
  (m.colors ≠ [] → m.colors.length = m.vertices.length) ∧
  (m.normals ≠ [] → m.normals.length = m.vertices.length) ∧
  (m.texcoords ≠ [] → m.texcoords.length = m.vertices.length)

instance (m : Mesh) : Decidable (MeshInv m) := by
  unfold MeshInv; infer_instance

/-- Face validity (spec §3): each of the 3 indices is in range. -/
def ValidFaces (m : Mesh) : Prop :=
  ∀ f ∈ m.faces, ∀ idx ∈ f.indicesList, 0 ≤ idx ∧ idx < (m.vertices.length : Int)

instance (m : Mesh) : Decidable (ValidFaces m) := by
  unfold ValidFaces; infer_instance

/-- Faces reference only non-removed (finite-position) vertices
(spec §3: indices "must reference valid, non-removed vertices"). -/
def FacesReferenceFinite (m : Mesh) : Prop :=
  ∀ f ∈ m.faces, ∀ idx ∈ f.indicesList, ptIsNan (m.vertices.getD idx.toNat ptZero) = false

instance (m : Mesh) : Decidable (FacesReferenceFinite m) := by
  unfold FacesReferenceFinite; infer_instance

/-- The NaN-to-zero substitution applied pointwise to a normal vector. -/
def ptNanToZero (p : Pt3) : Pt3 := ⟨nanToZero p.x, nanToZero p.y, nanToZero p.z⟩

/-! ### Concrete instances used by single claims -/

/-- The single triangle `(0,0,0), (1,0,0), (0,1,0)` with face `(0,1,2)`. -/
def triangleMesh : Mesh :=
  { emptyMesh with vertices := [pt3 0 0 0, pt3 1 0 0, pt3 0 1 0], faces := [⟨0, 1, 2⟩] }

/-- A one-vertex mesh with a per-vertex normal and no other attribute. -/
def c5receiver : Mesh :=
  { emptyMesh with vertices := [pt3 0 0 0], normals := [pt3 0 0 1] }

/-- Another one-vertex mesh with a per-vertex normal. -/
def c5operand : Mesh :=
  { emptyMesh with vertices := [pt3 1 0 0], normals := [pt3 0 1 0] }

/-- A one-vertex mesh with no optional attribute. -/
def oneVertexMesh : Mesh := { emptyMesh with vertices := [pt3 0 0 0] }

/-- A surfel with a unit normal. -/
def unitSurfel : Surfel := ⟨pt3 1 1 1, pt3 0 0 1, some 1, ⟨1, 2, 3⟩⟩

/-- A mesh with a duplicated vertex position referenced by its face. -/
def dupMesh : Mesh :=
  { emptyMesh with vertices := [pt3 0 0 0, pt3 0 0 0, pt3 1 0 0], faces := [⟨0, 1, 2⟩] }

/-- A full-attribute mesh used to witness the PLY round-trip. -/
def rtMesh : Mesh :=
  { emptyMesh with
    vertices := [pt3 1 2 3, pt3 4 5 6],
    colors := [⟨10, 20, 30⟩, ⟨40, 50, 60⟩],
    normals := [⟨none, some 1, some 0⟩, pt3 0 0 1],
    faces := [⟨0, 1, 0⟩] }

/-! ### Generic list helpers -/

/-- Reading every position of a list in order reconstructs the list. -/
theorem map_getD_range {α : Type} (l : List α) (d : α) :
    (List.range l.length).map (fun i => l.getD i d) = l := by
  induction l with
  | nil => rfl
  | cons a t ih =>
    show (List.range (t.length + 1)).map _ = _
    rw [List.range_succ_eq_map, List.map_cons, List.map_map]
    refine congrArg₂ _ (by simp) ?_
    calc (List.range t.length).map ((fun i => (a :: t).getD i d) ∘ Nat.succ)
        = (List.range t.length).map (fun i => t.getD i d) := by
          refine List.map_congr_left fun i _ => ?_
          simp [List.getD_cons_succ]
      _ = t := ih

/-- Composed form of `map_getD_range`. -/
theorem map_f_getD_range {α β : Type} (l : List α) (d : α) (f : α → β) :
    (List.range l.length).map (fun i => f (l.getD i d)) = l.map f := by
  have h : (fun i => f (l.getD i d)) = f ∘ (fun i => l.getD i d) := rfl
  rw [h, ← List.map_map, map_getD_range]

/-- `getD` after `set` at a different position. -/
theorem getD_set_ne {α : Type} (l : List α) (i j : Nat) (x d : α) (h : i ≠ j) :
    (l.set i x).getD j d = l.getD j d := by
  rw [List.getD_eq_getElem?_getD, List.getD_eq_getElem?_getD, List.getElem?_set_ne h]

/-- `getD` after `set` at the same, in-range position. -/
theorem getD_set_self {α : Type} (l : List α) (i : Nat) (x d : α) (h : i < l.length) :
    (l.set i x).getD i d = x := by
  rw [List.getD_eq_getElem?_getD, List.getElem?_set_self h]; rfl

/-! ### Compaction helpers -/

theorem removeIsolatedVertices_vertices (m : Mesh) :
    (removeIsolatedVertices m).vertices = m.vertices.filter keepVertex := rfl

theorem removeIsolatedVertices_vertices_length (m : Mesh) :
    (removeIsolatedVertices m).vertices.length = survivorCount m.vertices := by
  rw [removeIsolatedVertices_vertices, survivorCount, List.countP_eq_length_filter]

theorem mem_removeIsolatedVertices_finite (m : Mesh) :
    ∀ v ∈ (removeIsolatedVertices m).vertices, ptIsNan v = false := by
  intro v hv
  rw [removeIsolatedVertices_vertices] at hv
  have := (List.mem_filter.mp hv).2
  simpa [keepVertex] using this

/-- A surviving vertex has fewer survivors before it than in total. -/
theorem countP_take_lt (vs : List Pt3) (i : Nat) (hi : i < vs.length)
    (hk : keepVertex (vs.getD i ptZero) = true) :
    (vs.take i).countP keepVertex < vs.countP keepVertex := by
  conv_rhs => rw [← List.take_append_drop i vs]
  rw [List.countP_append]
  have hdrop : vs.drop i = vs[i] :: vs.drop (i + 1) := List.drop_eq_getElem_cons hi
  have hkk : keepVertex vs[i] = true := by rwa [List.getD_eq_getElem vs ptZero hi] at hk
  rw [hdrop, List.countP_cons, hkk]
  simp only [if_true]
  omega

/-- `new_indices` sends a surviving in-range vertex into the dense range. -/
theorem newIndexOf_bounds (vs : List Pt3) (i : Nat) (hi : i < vs.length)
    (hk : ptIsNan (vs.getD i ptZero) = false) :
    0 ≤ newIndexOf vs i ∧ newIndexOf vs i < (survivorCount vs : Int) := by
  unfold newIndexOf
  rw [hk]
  simp only [if_neg Bool.false_ne_true]
  constructor
  · exact Int.ofNat_nonneg _
  · exact_mod_cast countP_take_lt vs i hi (by unfold keepVertex; rw [hk]; rfl)

/-- When every vertex survives, `new_indices` is the identity. -/
theorem newIndexOf_all_keep (vs : List Pt3) (hall : ∀ v ∈ vs, keepVertex v = true)
    (i : Nat) (hi : i < vs.length) : newIndexOf vs i = (i : Int) := by
  have hmem : vs.getD i ptZero ∈ vs := by
    rw [List.getD_eq_getElem vs ptZero hi]; exact List.getElem_mem hi
  have hk : keepVertex (vs.getD i ptZero) = true := hall _ hmem
  have hnan : ptIsNan (vs.getD i ptZero) = false := by
    simpa [keepVertex] using hk
  unfold newIndexOf
  rw [hnan]
  simp only [if_neg Bool.false_ne_true]
  have : (vs.take i).countP keepVertex = (vs.take i).length :=
    List.countP_eq_length.mpr fun a ha => hall a (List.mem_of_mem_take ha)
  rw [this, List.length_take]
  omega

theorem compactAttr_length {α : Type} (vs : List Pt3) (xs : List α)
    (h : xs.length = vs.length) : (compactAttr vs xs).length = survivorCount vs := by
  unfold compactAttr survivorCount
  rw [List.length_map, ← List.countP_eq_length_filter]
  induction vs generalizing xs with
  | nil => simp [List.zip]
  | cons v tv ih =>
    cases xs with
    | nil => simp at h
    | cons x tx =>
      have h2 : tx.length = tv.length := by simpa using h
      simp only [List.zip_cons_cons, List.countP_cons, ih tx h2]

theorem compactAttr_all_keep {α : Type} (vs : List Pt3) (xs : List α)
    (hall : ∀ v ∈ vs, keepVertex v = true) (h : xs.length = vs.length) :
    compactAttr vs xs = xs := by
  unfold compactAttr
  have hf : (vs.zip xs).filter (fun p => keepVertex p.1) = vs.zip xs :=
    List.filter_eq_self.mpr fun p hp => hall p.1 (List.of_mem_zip hp).1
  rw [hf, List.map_snd_zip vs xs (le_of_eq h)]

/-! ### Deduplication: basic facts -/

theorem rewriteIdx_nil (idx : Int) : rewriteIdx [] idx = idx := by
  unfold rewriteIdx
  split <;> rfl

theorem rewriteFace_nil (f : Face) : rewriteFace [] f = f := by
  cases f; simp [rewriteFace, rewriteIdx_nil]

/-- `dedupGo` never changes the length of the vertex array. -/
theorem dedupGo_length (l : List Nat) :
    ∀ (a : Nat) (vs : List Pt3) (al : List (Nat × Nat)),
      (dedupGo a l vs al).1.length = vs.length := by
  induction l with
  | nil => intro a vs al; rfl
  | cons j rest ih =>
    intro a vs al
    unfold dedupGo
    split
    · rw [ih, List.length_set]
    · exact ih _ _ _

theorem dedupScan_length (l : List Nat) (vs : List Pt3) (al : List (Nat × Nat)) :
    (dedupScan l vs al).1.length = vs.length := by
  cases l with
  | nil => rfl
  | cons a rest => exact dedupGo_length rest a vs al

theorem removeDuplicatedVertices_length (m : Mesh) :
    (removeDuplicatedVertices m).vertices.length = m.vertices.length :=
  dedupScan_length _ _ _

/-! ## Claim C9: deduplication is total and a no-op on the empty mesh -/

/-- C9: `removeDuplicatedVertices` is a total deterministic function of the
mesh (it is defined by structural recursion, hence terminates on every
input); it never changes the vertex count, and on a mesh with zero
vertices it returns the mesh unchanged (in the source, the empty case
exercises the underflowing `i < size-1` guard, observably a state no-op). -/
theorem removeDuplicatedVertices_total (m : Mesh) :
    (removeDuplicatedVertices m).vertices.length = m.vertices.length ∧
    (m.vertices = [] → removeDuplicatedVertices m = m) := by
  constructor
  · exact dedupScan_length _ _ _
  · intro h
    have h1 : dedupResult m = (m.vertices, []) := by
      unfold dedupResult orderedIndices
      rw [h]
      rfl
    have h2 : m.faces.map (rewriteFace []) = m.faces := by
      calc m.faces.map (rewriteFace [])
          = m.faces.map id := List.map_congr_left fun x _ => rewriteFace_nil x
        _ = m.faces := List.map_id m.faces
    simp only [removeDuplicatedVertices, h1, h2]

/-- C9 witness: the empty mesh is returned unchanged. -/
theorem removeDuplicatedVertices_total_witness :
    removeDuplicatedVertices emptyMesh = emptyMesh :=
  (removeDuplicatedVertices_total emptyMesh).2 rfl

/-! ## Claim C10: plane patch appends 4 vertices and 2 constant faces -/

/-- C10: `generate_mesh_from_plane` appends exactly 4 vertices (the four
plane-edge intersections) and exactly 2 faces with the constant index
triples `(0,1,2)` and `(2,1,3)`, not offset by the receiver's prior vertex
count — so on a non-empty receiver they reference the receiver's first
vertices, not the appended ones. -/
theorem generate_mesh_from_plane_appends (intersect : Pt3 → Pt3 → Pt3)
    (m : Mesh) (center : Pt3) (plane_size : F) :
    ∃ ps : List Pt3,
      (generate_mesh_from_plane intersect m center plane_size).vertices = m.vertices ++ ps ∧
      ps.length = 4 ∧
      (generate_mesh_from_plane intersect m center plane_size).faces
        = m.faces ++ [⟨0, 1, 2⟩, ⟨2, 1, 3⟩] ∧
      (generate_mesh_from_plane intersect m center plane_size).vertices.length
        = m.vertices.length + 4 ∧
      (generate_mesh_from_plane intersect m center plane_size).faces.length
        = m.faces.length + 2 := by
  refine ⟨_, rfl, rfl, rfl, ?_, ?_⟩ <;>
    simp [generate_mesh_from_plane]

/-! ## Claim C3: compaction drops exactly the non-finite vertices -/

/-- C3 counterexample: on the mesh with one finite vertex and no faces,
`removeIsolatedVertices` keeps the vertex even though no face references
it — refuting the claim that every output vertex is referenced by at
least one face (the pass drops NaN-position vertices only, it does not
drop unreferenced finite vertices). -/
theorem removeIsolatedVertices_keeps_unreferenced :
    (removeIsolatedVertices oneVertexMesh).vertices.length = 1 ∧
    (removeIsolatedVertices oneVertexMesh).faces = [] ∧
    ¬ Referenced (removeIsolatedVertices oneVertexMesh) 0 := by decide

/-- Compaction sends valid faces referencing finite vertices to valid
faces referencing finite vertices. -/
theorem removeIsolated_valid_finite (m : Mesh) (hval : ValidFaces m)
    (hfin : FacesReferenceFinite m) :
    ValidFaces (removeIsolatedVertices m) ∧
    FacesReferenceFinite (removeIsolatedVertices m) := by
  have hvlen := removeIsolatedVertices_vertices_length m
  have hslot : ∀ f ∈ m.faces, ∀ idx ∈ f.indicesList,
      0 ≤ remapFaceIndex m.vertices idx ∧
      remapFaceIndex m.vertices idx < ((removeIsolatedVertices m).vertices.length : Int) := by
    intro f hf idx hidx
    obtain ⟨h0, hlt⟩ := hval f hf idx hidx
    have hto : idx.toNat < m.vertices.length := by omega
    have hk : ptIsNan (m.vertices.getD idx.toNat ptZero) = false := hfin f hf idx hidx
    have hb := newIndexOf_bounds m.vertices idx.toNat hto hk
    rw [hvlen]
    unfold remapFaceIndex
    rw [if_pos ⟨h0, hto⟩]
    exact hb
  constructor
  · intro f' hf'
    simp only [removeIsolatedVertices, List.mem_map] at hf'
    obtain ⟨f, hf, rfl⟩ := hf'
    intro idx hidx
    simp only [Face.indicesList, List.mem_cons, List.not_mem_nil, or_false] at hidx
    rcases hidx with rfl | rfl | rfl
    · exact hslot f hf f.i0 (by simp [Face.indicesList])
    · exact hslot f hf f.i1 (by simp [Face.indicesList])
    · exact hslot f hf f.i2 (by simp [Face.indicesList])
  · intro f' hf'
    simp only [removeIsolatedVertices, List.mem_map] at hf'
    obtain ⟨f, hf, rfl⟩ := hf'
    intro idx hidx
    have hrange : 0 ≤ idx ∧ idx < ((removeIsolatedVertices m).vertices.length : Int) := by
      simp only [Face.indicesList, List.mem_cons, List.not_mem_nil, or_false] at hidx
      rcases hidx with rfl | rfl | rfl
      · exact hslot f hf f.i0 (by simp [Face.indicesList])
      · exact hslot f hf f.i1 (by simp [Face.indicesList])
      · exact hslot f hf f.i2 (by simp [Face.indicesList])
    have hto : idx.toNat < (removeIsolatedVertices m).vertices.length := by omega
    have hmem : (removeIsolatedVertices m).vertices.getD idx.toNat ptZero
        ∈ (removeIsolatedVertices m).vertices := by
      rw [List.getD_eq_getElem _ ptZero hto]; exact List.getElem_mem hto
    exact mem_removeIsolatedVertices_finite m _ hmem

/-- C3 (amended): after `removeIsolatedVertices`, every output vertex has
a finite (non-NaN) position, and the output vertex count equals the
number of input vertices with finite positions (unreferenced finite
vertices are kept); the face count is unchanged, and on a mesh whose
faces are valid and reference finite vertices, the rewritten faces are
valid for the compacted mesh and reference finite vertices. -/
theorem removeIsolatedVertices_spec (m : Mesh) :
    (∀ v ∈ (removeIsolatedVertices m).vertices, ptIsNan v = false) ∧
    (removeIsolatedVertices m).vertices.length = survivorCount m.vertices ∧
    (removeIsolatedVertices m).faces.length = m.faces.length ∧
    (ValidFaces m → FacesReferenceFinite m →
      ValidFaces (removeIsolatedVertices m) ∧
      FacesReferenceFinite (removeIsolatedVertices m)) :=
  ⟨mem_removeIsolatedVertices_finite m,
   removeIsolatedVertices_vertices_length m,
   by simp [removeIsolatedVertices],
   fun hval hfin => removeIsolated_valid_finite m hval hfin⟩

/-- C3 amended-claim witness, at the duplicated-vertex mesh after
deduplication. -/
theorem removeIsolatedVertices_spec_witness :
    (∀ v ∈ (removeIsolatedVertices (removeDuplicatedVertices dupMesh)).vertices,
       ptIsNan v = false) ∧
    (removeIsolatedVertices (removeDuplicatedVertices dupMesh)).vertices.length
      = survivorCount (removeDuplicatedVertices dupMesh).vertices ∧
    ValidFaces (removeIsolatedVertices (removeDuplicatedVertices dupMesh)) := by
  have h := removeIsolatedVertices_spec (removeDuplicatedVertices dupMesh)
  exact ⟨h.1, h.2.1, (h.2.2.2 (by decide) (by decide)).1⟩

/-! ## Claim C5: addMesh and the attribute-mismatch error -/

/-- C5: the code contradicts the claim for normals.  Both meshes have one
vertex and one normal (`hasNormals` holds for both before the call), yet
`addMesh` neither appends the operand's normals nor raises the
attribute-mismatch error: it reads the normals-presence flag only after
extending the vertex array (`mesh.cpp:600`), so the flag is false and the
normals branch is silently skipped, leaving a 2-vertex mesh with 1
normal.  (The colors branch, checked before the extension, behaves as the
claim states.) -/
theorem addMesh_normals_checked_after_extension :
    c5receiver.hasNormals = true ∧
    c5operand.hasNormals = true ∧
    (addMesh c5receiver c5operand).map Mesh.vertices = some [pt3 0 0 0, pt3 1 0 0] ∧
    (addMesh c5receiver c5operand).map Mesh.normals = some [pt3 0 0 1] := by decide

/-! ## Claim C8: the loader rejects non-triangular faces -/

theorem toFace?_eq_none_iff (l : List Int) : toFace? l = none ↔ l.length ≠ 3 := by
  rcases l with _ | ⟨a, _ | ⟨b, _ | ⟨c, _ | ⟨d, t⟩⟩⟩⟩ <;> simp [toFace?]

theorem toFaces?_eq_none_iff (frs : List PlyFaceRec) :
    toFaces? frs = none ↔ ∃ fr ∈ frs, fr.verts.length ≠ 3 := by
  induction frs with
  | nil => simp [toFaces?]
  | cons fr t ih =>
    cases h1 : toFace? fr.verts with
    | none =>
      simp only [toFaces?, h1]
      constructor
      · intro _
        exact ⟨fr, List.mem_cons_self fr t, (toFace?_eq_none_iff fr.verts).mp h1⟩
      · intro _; trivial
    | some f =>
      cases h2 : toFaces? t with
      | none =>
        simp only [toFaces?, h1, h2]
        constructor
        · intro _
          obtain ⟨g, hg, hglen⟩ := ih.mp h2
          exact ⟨g, List.mem_cons_of_mem fr hg, hglen⟩
        · intro _; trivial
      | some fs =>
        simp only [toFaces?, h1, h2]
        constructor
        · intro hcon; exact absurd hcon (by simp)
        · rintro ⟨g, hg, hglen⟩
          rcases List.mem_cons.mp hg with rfl | hg2
          · exact absurd ((toFace?_eq_none_iff g.verts).mpr hglen) (by rw [h1]; simp)
          · exact absurd (ih.mpr ⟨g, hg2, hglen⟩) (by rw [h2]; simp)

/-- C8: `loadFromPlyFile` raises the fatal error and rejects the whole
load exactly when some face element of the file has a vertex count other
than 3; a file whose faces all have exactly 3 indices (or which has no
face element) never triggers it. -/
theorem loadFromPlyFile_rejects_non_triangles (d : PlyData) (prev : Mesh) :
    loadFromPlyFile d prev = none ↔
      ∃ frs, d.faceElem = some frs ∧ ∃ fr ∈ frs, fr.verts.length ≠ 3 := by
  unfold loadFromPlyFile
  cases hfe : d.faceElem with
  | none => simp [hfe]
  | some frs =>
    cases h2 : toFaces? frs with
    | none =>
      simp only [h2]
      constructor
      · intro _; exact ⟨frs, rfl, (toFaces?_eq_none_iff frs).mp h2⟩
      · intro _; trivial
    | some fs =>
      simp only [h2]
      constructor
      · intro hcon; exact absurd hcon (by simp)
      · rintro ⟨frs2, hfrs2, hbad⟩
        have heq : frs2 = frs := (Option.some_injective _ hfrs2).symm
        subst heq
        exact absurd ((toFaces?_eq_none_iff frs2).mpr hbad) (by rw [h2]; simp)

/-- C8 witness: a concrete quad face is rejected; a concrete triangle
file is accepted. -/
theorem loadFromPlyFile_rejects_non_triangles_witness :
    loadFromPlyFile ⟨false, false, false, [], some [⟨[0, 1, 2, 3], none⟩]⟩ emptyMesh
      = none ∧
    loadFromPlyFile ⟨false, false, false, [], some [⟨[0, 1, 2], none⟩]⟩ emptyMesh
      ≠ none := by
  constructor
  · exact (loadFromPlyFile_rejects_non_triangles _ emptyMesh).mpr
      ⟨[⟨[0, 1, 2, 3], none⟩], rfl, ⟨[0, 1, 2, 3], none⟩, by simp, by simp⟩
  · intro hcon
    obtain ⟨frs, hfrs, fr, hfr, hlen⟩ :=
      (loadFromPlyFile_rejects_non_triangles _ emptyMesh).mp hcon
    obtain rfl : frs = [⟨[0, 1, 2], none⟩] := (Option.some_injective _ hfrs).symm
    simp only [List.mem_singleton] at hfr
    subst hfr
    simp at hlen

/-! ## Claim C1: PLY save/load round-trip -/

theorem toFaces?_of_verts (l : List PlyFaceRec) :
    ∀ fl : List Face, l.map PlyFaceRec.verts = fl.map Face.indicesList →
      toFaces? l = some fl := by
  induction l with
  | nil =>
    intro fl h
    have : fl = [] := by
      cases fl with
      | nil => rfl
      | cons g gt => simp at h
    subst this; rfl
  | cons fr t ih =>
    intro fl h
    cases fl with
    | nil => simp at h
    | cons g gt =>
      simp only [List.map_cons, List.cons.injEq] at h
      obtain ⟨h1, h2⟩ := h
      have hface : toFace? fr.verts = some g := by
        rw [h1]
        show toFace? [g.i0, g.i1, g.i2] = some g
        cases g; rfl
      simp only [toFaces?, hface, ih gt h2]

/-- C1: saving a mesh that has vertices, per-vertex normals, per-vertex
colors and triangle faces (and no per-vertex texcoords) and reloading the
produced file yields a mesh with the same vertex count, the same face
count, identical positions, identical colors (the integer cast on save is
the identity on byte values), identical faces, and normals equal up to
the substitution of 0 for each NaN normal coordinate performed on save. -/
theorem ply_roundtrip (m prev : Mesh)
    (hv : m.vertices ≠ [])
    (hn : m.normals.length = m.vertices.length)
    (hc : m.colors.length = m.vertices.length)
    (ht : m.texcoords = []) :
    ∃ m2 : Mesh, loadFromPlyFile (saveToPlyFile m) prev = some m2 ∧
      m2.vertices.length = m.vertices.length ∧
      m2.faces.length = m.faces.length ∧
      m2.vertices = m.vertices ∧
      m2.colors = m.colors ∧
      m2.normals = m.normals.map ptNanToZero ∧
      m2.faces = m.faces := by
  have hcflag : m.hasColors = true := by simp [Mesh.hasColors, hc]
  have hnflag : m.hasNormals = true := by simp [Mesh.hasNormals, hn]
  have hverts :
      (saveToPlyFile m).verts.map (fun v => Pt3.mk v.x v.y v.z) = m.vertices := by
    show ((List.range m.vertices.length).map (saveVertexRec m)).map _ = m.vertices
    rw [List.map_map]
    calc (List.range m.vertices.length).map
          ((fun v : PlyVertexRec => Pt3.mk v.x v.y v.z) ∘ saveVertexRec m)
        = (List.range m.vertices.length).map (fun i => m.vertices.getD i ptZero) := by
          refine List.map_congr_left fun i _ => ?_
          rfl
      _ = m.vertices := map_getD_range m.vertices ptZero
  have hcolors :
      (saveToPlyFile m).verts.map (fun v => C3b.mk v.r v.g v.b) = m.colors := by
    show ((List.range m.vertices.length).map (saveVertexRec m)).map _ = m.colors
    rw [List.map_map]
    calc (List.range m.vertices.length).map
          ((fun v : PlyVertexRec => C3b.mk v.r v.g v.b) ∘ saveVertexRec m)
        = (List.range m.vertices.length).map (fun i => m.colors.getD i c3bZero) := by
          refine List.map_congr_left fun i _ => ?_
          show C3b.mk (saveVertexRec m i).r (saveVertexRec m i).g (saveVertexRec m i).b
              = m.colors.getD i c3bZero
          simp only [saveVertexRec, hcflag, if_true]
      _ = m.colors := by rw [← hc]; exact map_getD_range m.colors c3bZero
  have hnormals :
      (saveToPlyFile m).verts.map (fun v => Pt3.mk v.nx v.ny v.nz)
        = m.normals.map ptNanToZero := by
    show ((List.range m.vertices.length).map (saveVertexRec m)).map _ = _
    rw [List.map_map]
    calc (List.range m.vertices.length).map
          ((fun v : PlyVertexRec => Pt3.mk v.nx v.ny v.nz) ∘ saveVertexRec m)
        = (List.range m.vertices.length).map
            (fun i => ptNanToZero (m.normals.getD i ptZero)) := by
          refine List.map_congr_left fun i _ => ?_
          show Pt3.mk (saveVertexRec m i).nx (saveVertexRec m i).ny (saveVertexRec m i).nz
              = ptNanToZero (m.normals.getD i ptZero)
          simp only [saveVertexRec, hnflag, if_true, ptNanToZero]
      _ = m.normals.map ptNanToZero := by
          rw [← hn]; exact map_f_getD_range m.normals ptZero ptNanToZero
  by_cases hfc : m.faces = []
  · have hnoface : (saveToPlyFile m).faceElem = none := by
      simp [saveToPlyFile, Mesh.hasFaces, hfc]
    refine ⟨{ prev with
              vertices := m.vertices, colors := m.colors,
              normals := m.normals.map ptNanToZero, texcoords := [], faces := [] },
            ?_, by simp, by simp [hfc], by simp, by simp, by simp, by simp [hfc]⟩
    unfold loadFromPlyFile
    rw [hnoface]
    simp only [Option.some.injEq]
    have hcp : (saveToPlyFile m).colorsProp = true := hcflag
    have hnp : (saveToPlyFile m).normalsProp = true := hnflag
    rw [hcp, hnp]
    simp only [if_true, hverts, hcolors, hnormals]
  · have hfaceflag : m.hasFaces = true := by
      simp [Mesh.hasFaces, List.length_eq_zero, hfc]
    have hfe : (saveToPlyFile m).faceElem
        = some ((List.range m.faces.length).map (saveFaceRec m)) := by
      simp [saveToPlyFile, hfaceflag]
    have hfaces : toFaces? ((List.range m.faces.length).map (saveFaceRec m))
        = some m.faces := by
      refine toFaces?_of_verts _ m.faces ?_
      rw [List.map_map]
      calc (List.range m.faces.length).map (PlyFaceRec.verts ∘ saveFaceRec m)
          = (List.range m.faces.length).map
              (fun i => Face.indicesList (m.faces.getD i faceZero)) := by
            refine List.map_congr_left fun i _ => ?_
            rfl
        _ = m.faces.map Face.indicesList := map_f_getD_range m.faces faceZero _
    refine ⟨{ prev with
              vertices := m.vertices, colors := m.colors,
              normals := m.normals.map ptNanToZero, texcoords := [], faces := m.faces },
            ?_, by simp, by simp, by simp, by simp, by simp, by simp⟩
    unfold loadFromPlyFile
    rw [hfe]
    simp only [hfaces, Option.some.injEq]
    have hcp : (saveToPlyFile m).colorsProp = true := hcflag
    have hnp : (saveToPlyFile m).normalsProp = true := hnflag
    rw [hcp, hnp]
    simp only [if_true, hverts, hcolors, hnormals]

/-- C1 witness: the round-trip at a concrete full-attribute mesh with a
NaN normal coordinate. -/
theorem ply_roundtrip_witness :
    ∃ m2 : Mesh, loadFromPlyFile (saveToPlyFile rtMesh) emptyMesh = some m2 ∧
      m2.vertices.length = rtMesh.vertices.length ∧
      m2.faces.length = rtMesh.faces.length ∧
      m2.vertices = rtMesh.vertices ∧
      m2.colors = rtMesh.colors ∧
      m2.normals = rtMesh.normals.map ptNanToZero ∧
      m2.faces = rtMesh.faces :=
  ply_roundtrip rtMesh emptyMesh (by decide) (by decide) (by decide) (by decide)

/-! ## Claim C7: normal estimation -/

theorem fadd_zero_left (a : F) : fadd (some 0) a = a := by
  cases a <;> simp [fadd]

theorem fadd_zero_right (a : F) : fadd a (some 0) = a := by
  cases a <;> simp [fadd]

theorem fadd_assoc (a b c : F) : fadd (fadd a b) c = fadd a (fadd b c) := by
  cases a <;> cases b <;> cases c <;> simp [fadd, add_assoc]

theorem ptZero_add (p : Pt3) : ptAdd ptZero p = p := by
  cases p with
  | mk a b c => simp [ptAdd, ptZero, fadd_zero_left]

theorem ptAdd_zero (p : Pt3) : ptAdd p ptZero = p := by
  cases p with
  | mk a b c => simp [ptAdd, ptZero, fadd_zero_right]

theorem ptAdd_assoc (p q r : Pt3) : ptAdd (ptAdd p q) r = ptAdd p (ptAdd q r) := by
  simp [ptAdd, fadd_assoc]

/-- Pulling the start value out of an add-fold. -/
theorem foldl_ptAdd_shift (g : Face → Pt3) (l : List Face) (s : Pt3) :
    l.foldl (fun acc f => ptAdd acc (g f)) s
      = ptAdd s (l.foldl (fun acc f => ptAdd acc (g f)) ptZero) := by
  induction l generalizing s with
  | nil => exact (ptAdd_zero s).symm
  | cons f t ih =>
    show t.foldl _ (ptAdd s (g f)) = ptAdd s (t.foldl _ (ptAdd ptZero (g f)))
    rw [ih (ptAdd s (g f)), ih (ptAdd ptZero (g f)), ptZero_add, ptAdd_assoc]

/-- A fold of all-zero contributions stays at the start value. -/
theorem foldl_ptAdd_zero (c : Face → Pt3) (l : List Face)
    (h : ∀ f ∈ l, c f = ptZero) :
    ∀ s : Pt3, l.foldl (fun acc f => ptAdd acc (c f)) s = s := by
  induction l with
  | nil => intro s; rfl
  | cons f t ih =>
    intro s
    show t.foldl _ (ptAdd s (c f)) = s
    rw [h f (List.mem_cons_self f t), ptAdd_zero]
    exact ih (fun g hg => h g (List.mem_cons_of_mem f hg)) s

theorem listAddAt_length (l : List Pt3) (j : Nat) (p : Pt3) :
    (listAddAt l j p).length = l.length := by
  simp [listAddAt]

theorem getD_listAddAt (l : List Pt3) (j i : Nat) (p : Pt3) (hj : j < l.length) :
    (listAddAt l j p).getD i ptZero
      = if i = j then ptAdd (l.getD i ptZero) p else l.getD i ptZero := by
  unfold listAddAt
  by_cases h : i = j
  · subst h
    rw [getD_set_self _ _ _ _ hj, if_pos rfl]
  · rw [getD_set_ne _ _ _ _ _ (fun hh => h hh.symm), if_neg h]

theorem accumStep_length (vs b : List Pt3) (f : Face) :
    (accumStep vs b f).length = b.length := by
  simp [accumStep, listAddAt_length]

/-- One accumulation step adds exactly the face's contribution at each
in-range vertex. -/
theorem getD_accumStep (vs b : List Pt3) (f : Face) (i : Nat)
    (h0 : 0 ≤ f.i0 ∧ f.i0 < (b.length : Int))
    (h1 : 0 ≤ f.i1 ∧ f.i1 < (b.length : Int))
    (h2 : 0 ≤ f.i2 ∧ f.i2 < (b.length : Int)) :
    (accumStep vs b f).getD i ptZero
      = ptAdd (b.getD i ptZero) (faceContrib vs i f) := by
  have hb0 : f.i0.toNat < b.length := by omega
  have hb1 : f.i1.toNat < (listAddAt b f.i0.toNat (faceCross vs f)).length := by
    rw [listAddAt_length]; omega
  have hb2 : f.i2.toNat <
      (listAddAt (listAddAt b f.i0.toNat (faceCross vs f)) f.i1.toNat
        (faceCross vs f)).length := by
    rw [listAddAt_length, listAddAt_length]; omega
  unfold accumStep faceContrib
  rw [getD_listAddAt _ _ _ _ hb2, getD_listAddAt _ _ _ _ hb1, getD_listAddAt _ _ _ _ hb0]
  have e0 : ((i : Int) = f.i0) ↔ (i = f.i0.toNat) := by omega
  have e1 : ((i : Int) = f.i1) ↔ (i = f.i1.toNat) := by omega
  have e2 : ((i : Int) = f.i2) ↔ (i = f.i2.toNat) := by omega
  simp only [e0, e1, e2]
  split_ifs <;> simp [ptZero_add, ptAdd_zero, ptAdd_assoc]

/-- The accumulation loop computes, at each in-range vertex, the sum of
the face contributions. -/
theorem foldl_accumStep_getD (vs : List Pt3) (faces : List Face) (i : Nat) :
    ∀ (b : List Pt3), i < b.length →
      (∀ f ∈ faces, ∀ idx ∈ f.indicesList, 0 ≤ idx ∧ idx < (b.length : Int)) →
      (faces.foldl (accumStep vs) b).getD i ptZero
        = ptAdd (b.getD i ptZero)
            (faces.foldl (fun acc f => ptAdd acc (faceContrib vs i f)) ptZero) := by
  induction faces with
  | nil => intro b _ _; exact (ptAdd_zero _).symm
  | cons f t ih =>
    intro b hi hval
    have hlen : (accumStep vs b f).length = b.length := accumStep_length vs b f
    show (t.foldl (accumStep vs) (accumStep vs b f)).getD i ptZero
        = ptAdd (b.getD i ptZero) (t.foldl _ (ptAdd ptZero (faceContrib vs i f)))
    rw [ih (accumStep vs b f) (by rw [hlen]; exact hi)
        (by rw [hlen]; exact fun g hg => hval g (List.mem_cons_of_mem f hg))]
    have hf := hval f (List.mem_cons_self f t)
    rw [getD_accumStep vs b f i
        (hf f.i0 (by simp [Face.indicesList]))
        (hf f.i1 (by simp [Face.indicesList]))
        (hf f.i2 (by simp [Face.indicesList]))]
    rw [foldl_ptAdd_shift _ t (ptAdd ptZero (faceContrib vs i f)), ptZero_add,
        ptAdd_assoc]

theorem foldl_accumStep_length (vs : List Pt3) (faces : List Face) :
    ∀ b : List Pt3, (faces.foldl (accumStep vs) b).length = b.length := by
  induction faces with
  | nil => intro b; rfl
  | cons f t ih =>
    intro b
    show (t.foldl (accumStep vs) (accumStep vs b f)).length = _
    rw [ih, accumStep_length]

theorem normalAccums_length (m : Mesh) :
    (normalAccums m).length = m.vertices.length := by
  unfold normalAccums
  rw [foldl_accumStep_length, List.length_replicate]

theorem normalAccums_getD (m : Mesh) (hval : ValidFaces m) (i : Nat)
    (hi : i < m.vertices.length) :
    (normalAccums m).getD i ptZero = accumOf m i := by
  unfold normalAccums accumOf
  rw [foldl_accumStep_getD m.vertices m.faces i (List.replicate m.vertices.length ptZero)
      (by rw [List.length_replicate]; exact hi)
      (by rw [List.length_replicate]; exact hval)]
  have : (List.replicate m.vertices.length ptZero).getD i ptZero = ptZero := by
    rw [List.getD_eq_getElem _ _ (by rw [List.length_replicate]; exact hi)]
    exact List.getElem_replicate ptZero _
  rw [this, ptZero_add]

/-- C7: with any final normalization satisfying the spec of
`ntk::normalize` (a zero accumulator is kept, a unit-length accumulator is
returned unchanged), `computeNormalsFromFaces` on the triangle
`(0,0,0), (1,0,0), (0,1,0)` with face `(0,1,2)` produces the normal array
`[(0,0,1), (0,0,1), (0,0,1)]`, each entry of unit length; more generally
the normal of every in-range vertex is the normalization of the sum over
the faces of the cross product `(v1-v0) × (v2-v0)` contributed once per
slot holding that vertex, and a vertex referenced by no face keeps the
zero vector. -/
theorem computeNormalsFromFaces_spec (normalize : Pt3 → Pt3)
    (hz : normalize ptZero = ptZero)
    (hu : ∀ v : Pt3, ptNormSq v = some 1 → normalize v = v) :
    ((computeNormalsFromFaces normalize triangleMesh).normals
        = [pt3 0 0 1, pt3 0 0 1, pt3 0 0 1] ∧
     ∀ v ∈ (computeNormalsFromFaces normalize triangleMesh).normals,
       ptNormSq v = some 1) ∧
    (∀ m : Mesh, ValidFaces m → ∀ i : Nat, i < m.vertices.length →
       (computeNormalsFromFaces normalize m).normals.getD i ptZero
         = normalize (accumOf m i)) ∧
    (∀ m : Mesh, ValidFaces m → ∀ i : Nat, i < m.vertices.length →
       (∀ f ∈ m.faces, (i : Int) ∉ f.indicesList) →
       (computeNormalsFromFaces normalize m).normals.getD i ptZero = ptZero) := by
  have hgen : ∀ m : Mesh, ValidFaces m → ∀ i : Nat, i < m.vertices.length →
      (computeNormalsFromFaces normalize m).normals.getD i ptZero
        = normalize (accumOf m i) := by
    intro m hval i hi
    show ((normalAccums m).map normalize).getD i ptZero = _
    have hlen : i < ((normalAccums m).map normalize).length := by
      rw [List.length_map, normalAccums_length]; exact hi
    rw [List.getD_eq_getElem _ _ hlen, List.getElem_map,
        ← List.getD_eq_getElem (normalAccums m) ptZero
          (by rw [normalAccums_length]; exact hi),
        normalAccums_getD m hval i hi]
  refine ⟨?_, hgen, ?_⟩
  · have hcross : faceCross triangleMesh.vertices (Face.mk 0 1 2) = pt3 0 0 1 := by
      show ptCross (ptSub (pt3 1 0 0) (pt3 0 0 0)) (ptSub (pt3 0 1 0) (pt3 0 0 0))
          = pt3 0 0 1
      norm_num [ptCross, ptSub, pt3, fsub, fmul]
    have hacc : ∀ i : Nat, i < 3 →
        (normalAccums triangleMesh).getD i ptZero = pt3 0 0 1 := by
      intro i hi
      rw [normalAccums_getD triangleMesh (by decide) i hi]
      show ptAdd ptZero (faceContrib triangleMesh.vertices i (Face.mk 0 1 2))
          = pt3 0 0 1
      rw [ptZero_add]
      unfold faceContrib
      simp only [hcross]
      interval_cases i <;> simp [ptZero_add, ptAdd_zero]
    have hunit : ptNormSq (pt3 0 0 1) = some 1 := by
      norm_num [ptNormSq, pt3, fadd, fmul]
    have hlen3 : (normalAccums triangleMesh).length = 3 := normalAccums_length triangleMesh
    have hnormals : (computeNormalsFromFaces normalize triangleMesh).normals
        = [pt3 0 0 1, pt3 0 0 1, pt3 0 0 1] := by
      show (normalAccums triangleMesh).map normalize = _
      apply List.ext_getElem
      · rw [List.length_map, hlen3]; rfl
      · intro i h1 h2
        rw [List.getElem_map]
        have hi3 : i < 3 := by rw [List.length_map, hlen3] at h1; exact h1
        have : (normalAccums triangleMesh)[i] = pt3 0 0 1 := by
          rw [← List.getD_eq_getElem (normalAccums triangleMesh) ptZero
              (by rw [hlen3]; exact hi3)]
          exact hacc i hi3
        rw [this, hu (pt3 0 0 1) hunit]
        interval_cases i <;> rfl
    refine ⟨hnormals, ?_⟩
    intro v hv
    rw [hnormals] at hv
    simp only [List.mem_cons, List.not_mem_nil, or_false] at hv
    rcases hv with rfl | rfl | rfl <;> exact hunit
  · intro m hval i hi hout
    rw [hgen m hval i hi]
    have hzero : accumOf m i = ptZero := by
      unfold accumOf
      refine foldl_ptAdd_zero _ _ (fun f hf => ?_) ptZero
      have h0 : ¬ ((i : Int) = f.i0) := fun hh => hout f hf (by
        rw [hh]; simp [Face.indicesList])
      have h1 : ¬ ((i : Int) = f.i1) := fun hh => hout f hf (by
        rw [hh]; simp [Face.indicesList])
      have h2 : ¬ ((i : Int) = f.i2) := fun hh => hout f hf (by
        rw [hh]; simp [Face.indicesList])
      simp [faceContrib, h0, h1, h2, ptAdd_zero]
    rw [hzero, hz]

/-- C7 witness: the identity satisfies both normalization constraints at
the instances used, and the concrete triangle normals evaluate to
`(0,0,1)` at all three vertices. -/
theorem computeNormalsFromFaces_spec_witness :
    (computeNormalsFromFaces (fun v => v) triangleMesh).normals
      = [pt3 0 0 1, pt3 0 0 1, pt3 0 0 1] :=
  ((computeNormalsFromFaces_spec (fun v => v) rfl (fun _ _ => rfl)).1).1

/-! ## Claim C6: the per-vertex length invariant -/

/-- C6 counterexample: `addPointFromSurfel` on a one-vertex mesh with no
colors pushes a color and a normal unconditionally, leaving a 2-vertex
mesh whose color and normal arrays have length 1 — the invariant is not
preserved by every operation. -/
theorem meshInv_not_preserved_by_addPointFromSurfel :
    MeshInv oneVertexMesh ∧
    ¬ MeshInv (addPointFromSurfel oneVertexMesh unitSurfel) := by decide

/-- C6 (amended): the length invariant is preserved unconditionally by
`computeNormalsFromFaces` and both cleanup passes; by `addCube` when the
mesh has no normals and no texcoords; by `addSurfel` and
`addPointFromSurfel` only when colors and normals are present and
texcoords absent; and by a succeeding `addMesh` when the receiver is
empty, or the operand has no vertices, or the receiver has neither
normals nor texcoords (the operand satisfying the invariant too). -/
theorem meshInv_preservation (m : Mesh) (hm : MeshInv m) :
    (∀ nrm : Pt3 → Pt3, MeshInv (computeNormalsFromFaces nrm m)) ∧
    MeshInv (removeDuplicatedVertices m) ∧
    MeshInv (removeIsolatedVertices m) ∧
    (∀ center sizes color, m.normals = [] → m.texcoords = [] →
       MeshInv (addCube m center sizes color)) ∧
    (∀ s : Surfel, m.hasColors = true → m.hasNormals = true → m.texcoords = [] →
       MeshInv (addPointFromSurfel m s)) ∧
    (∀ (basis : Pt3 → Pt3 × Pt3) (s : Surfel),
       m.hasColors = true → m.hasNormals = true → m.texcoords = [] →
       MeshInv (addSurfel basis m s)) ∧
    (∀ rhs r : Mesh, MeshInv rhs → addMesh m rhs = some r →
       (m.vertices = [] ∨ rhs.vertices = [] ∨ (m.normals = [] ∧ m.texcoords = [])) →
       MeshInv r) := by
  obtain ⟨hmc, hmn, hmt⟩ := hm
  refine ⟨?_, ?_, ?_, ?_, ?_, ?_, ?_⟩
  · intro nrm
    refine ⟨fun h => hmc h, fun _ => ?_, fun h => hmt h⟩
    show ((normalAccums m).map nrm).length = m.vertices.length
    rw [List.length_map, normalAccums_length]
  · have hlen := removeDuplicatedVertices_length m
    exact ⟨fun h => by rw [hlen]; exact hmc h,
           fun h => by rw [hlen]; exact hmn h,
           fun h => by rw [hlen]; exact hmt h⟩
  · have hvlen := removeIsolatedVertices_vertices_length m
    have hattr : ∀ {α : Type} (xs : List α),
        (if decide (xs.length = m.vertices.length) = true
         then compactAttr m.vertices xs else []) ≠ [] →
        (if decide (xs.length = m.vertices.length) = true
         then compactAttr m.vertices xs else []).length
          = (removeIsolatedVertices m).vertices.length := by
      intro α xs hne
      by_cases hx : xs.length = m.vertices.length
      · rw [if_pos (decide_eq_true hx)] at hne ⊢
        rw [compactAttr_length m.vertices xs hx, hvlen]
      · rw [if_neg (by simpa using hx)] at hne
        exact absurd rfl hne
    exact ⟨fun h => hattr m.colors h, fun h => hattr m.normals h,
           fun h => hattr m.texcoords h⟩
  · intro center sizes color hn0 ht0
    refine ⟨?_, ?_, ?_⟩
    · show (if m.hasColors = true then m.colors ++ List.replicate 8 color else m.colors)
            ≠ [] →
          (if m.hasColors = true then m.colors ++ List.replicate 8 color
           else m.colors).length = (m.vertices ++ cubeCorners center sizes).length
      by_cases hc : m.hasColors = true
      · rw [if_pos hc]
        intro _
        have h1 : m.colors.length = m.vertices.length := by
          simpa [Mesh.hasColors] using hc
        simp [h1, show (cubeCorners center sizes).length = 8 from rfl]
      · rw [if_neg hc]
        intro hne
        exact absurd (by simp [Mesh.hasColors, hmc hne]) hc
    · intro hne
      exact absurd hn0 (by
        intro h0
        rw [show (addCube m center sizes color).normals = m.normals from rfl, h0] at hne
        exact hne rfl)
    · intro hne
      exact absurd ht0 (by
        intro h0
        rw [show (addCube m center sizes color).texcoords = m.texcoords from rfl, h0] at hne
        exact hne rfl)
  · intro s hc hn ht0
    have hc2 : m.colors.length = m.vertices.length := by simpa [Mesh.hasColors] using hc
    have hn2 : m.normals.length = m.vertices.length := by simpa [Mesh.hasNormals] using hn
    refine ⟨fun _ => ?_, fun _ => ?_, fun hne => ?_⟩
    · show (m.colors ++ [s.color]).length = (m.vertices ++ [s.location]).length
      simp [hc2]
    · show (m.normals ++ [s.normal]).length = (m.vertices ++ [s.location]).length
      simp [hn2]
    · exact absurd ht0 (fun h0 => hne (by
        rw [show (addPointFromSurfel m s).texcoords = m.texcoords from rfl, h0]))
  · intro basis s hc hn ht0
    have hc2 : m.colors.length = m.vertices.length := by simpa [Mesh.hasColors] using hc
    have hn2 : m.normals.length = m.vertices.length := by simpa [Mesh.hasNormals] using hn
    refine ⟨fun _ => ?_, fun _ => ?_, fun hne => ?_⟩
    · show (m.colors ++ List.replicate 6 s.color).length = (m.vertices ++ _).length
      simp [hc2]
    · show (m.normals ++ List.replicate 6 s.normal).length = (m.vertices ++ _).length
      simp [hn2]
    · exact absurd ht0 (fun h0 => hne (by
        rw [show (addSurfel basis m s).texcoords = m.texcoords from rfl, h0]))
  · intro rhs r hrhs hsome hcases
    obtain ⟨hrc, hrn, hrt⟩ := hrhs
    unfold addMesh at hsome
    by_cases hempty : m.vertices.length < 1
    · rw [if_pos hempty] at hsome
      obtain rfl : rhs = r := Option.some_injective _ hsome
      exact ⟨hrc, hrn, hrt⟩
    · rw [if_neg hempty] at hsome
      by_cases hcerr : (m.hasColors && !rhs.hasColors) = true
      · rw [if_pos hcerr] at hsome
        exact absurd hsome (by simp)
      · rw [if_neg hcerr] at hsome
        by_cases hnerr :
            (decide (m.normals.length = (m.vertices ++ rhs.vertices).length)
              && !rhs.hasNormals) = true
        · rw [if_pos hnerr] at hsome
          exact absurd hsome (by simp)
        · rw [if_neg hnerr] at hsome
          obtain rfl := Option.some_injective _ hsome
          have hmv : m.vertices ≠ [] := by
            intro h0
            exact hempty (by rw [h0]; simp)
          refine ⟨?_, ?_, ?_⟩
          · show (if m.hasColors = true then m.colors ++ rhs.colors else m.colors) ≠ []
                → (if m.hasColors = true then m.colors ++ rhs.colors else m.colors).length
                  = (m.vertices ++ rhs.vertices).length
            by_cases hc : m.hasColors = true
            · rw [if_pos hc]
              intro _
              have h1 : m.colors.length = m.vertices.length := by
                simpa [Mesh.hasColors] using hc
              have h2 : rhs.hasColors = true := by
                by_contra hcon
                have hf : rhs.hasColors = false := by
                  cases hx : rhs.hasColors
                  · rfl
                  · exact absurd hx hcon
                exact hcerr (by simp [hc, hf])
              have h3 : rhs.colors.length = rhs.vertices.length := by
                simpa [Mesh.hasColors] using h2
              simp [h1, h3]
            · rw [if_neg hc]
              intro hne
              exact absurd (by simp [Mesh.hasColors, hmc hne]) hc
          · show (if decide (m.normals.length = (m.vertices ++ rhs.vertices).length) = true
                  then m.normals ++ rhs.normals else m.normals) ≠ [] → _
            by_cases hn : m.normals.length = (m.vertices ++ rhs.vertices).length
            · rw [if_pos (decide_eq_true hn)]
              intro hne2
              have hnne : m.normals ≠ [] := by
                intro h0
                rw [h0] at hn
                simp only [List.length_nil, List.length_append] at hn
                exact hmv (List.eq_nil_of_length_eq_zero (by omega))
              have h1 : m.normals.length = m.vertices.length := hmn hnne
              have hrv : rhs.vertices.length = 0 := by
                rw [List.length_append] at hn
                omega
              have h2 : rhs.hasNormals = true := by
                by_contra hcon
                have hf : rhs.hasNormals = false := by
                  cases hx : rhs.hasNormals
                  · rfl
                  · exact absurd hx hcon
                exact hnerr (by simp [hn, hf])
              have h3 : rhs.normals.length = rhs.vertices.length := by
                simpa [Mesh.hasNormals] using h2
              simp only [List.length_append]
              omega
            · rw [if_neg (by simpa using hn)]
              intro hne2
              have h1 : m.normals.length = m.vertices.length := hmn hne2
              rcases hcases with h0 | h0 | h0
              · exact absurd h0 hmv
              · exact absurd hn (by simp [h0, h1])
              · exact absurd h0.1 hne2
          · show m.texcoords ≠ [] → m.texcoords.length = (m.vertices ++ rhs.vertices).length
            intro hne2
            have h1 : m.texcoords.length = m.vertices.length := hmt hne2
            rcases hcases with h0 | h0 | h0
            · exact absurd h0 hmv
            · simp [h0, h1]
            · exact absurd h0.2 hne2

/-- C6 amended-claim witness: at the empty mesh, compaction and the
surfel point both preserve the invariant. -/
theorem meshInv_preservation_witness :
    MeshInv (removeIsolatedVertices emptyMesh) ∧
    MeshInv (addPointFromSurfel emptyMesh unitSurfel) :=
  ⟨(meshInv_preservation emptyMesh (by decide)).2.2.1,
   (meshInv_preservation emptyMesh (by decide)).2.2.2.2.1 unitSurfel
     (by decide) (by decide) rfl⟩

/-! ## Claim C2 / C4: deduplication theory

### The comparator is a total order; float equality facts -/

theorem feq_eq_true_iff (a b : F) : feq a b = true ↔ a = b ∧ a ≠ none := by
  cases a <;> cases b <;> simp [feq]

theorem fisnan_eq_false_iff (a : F) : fisnan a = false ↔ a ≠ none := by
  cases a <;> simp [fisnan]

theorem ptEqF_eq_true_iff (p q : Pt3) :
    ptEqF p q = true ↔ p = q ∧ ptIsNan p = false := by
  cases p with
  | mk px py pz =>
    cases q with
    | mk qx qy qz =>
      simp only [ptEqF, ptIsNan, Bool.and_eq_true, Bool.or_eq_false_iff,
        feq_eq_true_iff, fisnan_eq_false_iff, Pt3.mk.injEq]
      tauto

theorem ptEqF_of_eq_finite (p q : Pt3) (h : p = q) (hf : ptIsNan p = false) :
    ptEqF p q = true := (ptEqF_eq_true_iff p q).mpr ⟨h, hf⟩

theorem fltTotal_irrefl (a : F) : fltTotal a a = false := by
  cases a <;> simp [fltTotal]

theorem fltTotal_trans {a b c : F} (h1 : fltTotal a b = true)
    (h2 : fltTotal b c = true) : fltTotal a c = true := by
  cases a <;> cases b <;> cases c <;> simp_all [fltTotal]
  exact lt_trans h1 h2

theorem fltTotal_trichotomy (a b : F) :
    fltTotal a b = true ∨ a = b ∨ fltTotal b a = true := by
  cases a <;> cases b <;> simp [fltTotal]
  exact lt_trichotomy _ _

theorem fltTotal_asymm {a b : F} (h : fltTotal a b = true) :
    fltTotal b a = false := by
  cases hx : fltTotal b a
  · rfl
  · exact absurd (fltTotal_trans h hx) (by rw [fltTotal_irrefl]; simp)

theorem ptLtLex_irrefl (p : Pt3) : ptLtLex p p = false := by
  simp [ptLtLex, fltTotal_irrefl]

theorem ptLtLex_eq_true_iff (p q : Pt3) :
    ptLtLex p q = true ↔
      fltTotal p.x q.x = true ∨
        (p.x = q.x ∧ (fltTotal p.y q.y = true ∨
          (p.y = q.y ∧ fltTotal p.z q.z = true))) := by
  simp [ptLtLex, Bool.or_eq_true, Bool.and_eq_true, decide_eq_true_eq]

theorem ptLtLex_trans {p q r : Pt3} (h1 : ptLtLex p q = true)
    (h2 : ptLtLex q r = true) : ptLtLex p r = true := by
  rw [ptLtLex_eq_true_iff] at h1 h2 ⊢
  rcases h1 with h1x | ⟨e1x, h1r⟩
  · rcases h2 with h2x | ⟨e2x, h2r⟩
    · exact Or.inl (fltTotal_trans h1x h2x)
    · exact Or.inl (e2x ▸ h1x)
  · rcases h2 with h2x | ⟨e2x, h2r⟩
    · exact Or.inl (by rw [e1x]; exact h2x)
    · refine Or.inr ⟨e1x.trans e2x, ?_⟩
      rcases h1r with h1y | ⟨e1y, h1z⟩
      · rcases h2r with h2y | ⟨e2y, h2z⟩
        · exact Or.inl (fltTotal_trans h1y h2y)
        · exact Or.inl (e2y ▸ h1y)
      · rcases h2r with h2y | ⟨e2y, h2z⟩
        · exact Or.inl (by rw [e1y]; exact h2y)
        · exact Or.inr ⟨e1y.trans e2y, fltTotal_trans h1z h2z⟩

theorem ptLtLex_total {p q : Pt3} (hne : p ≠ q) :
    ptLtLex p q = true ∨ ptLtLex q p = true := by
  rw [ptLtLex_eq_true_iff, ptLtLex_eq_true_iff]
  rcases fltTotal_trichotomy p.x q.x with hx | hx | hx
  · exact Or.inl (Or.inl hx)
  · rcases fltTotal_trichotomy p.y q.y with hy | hy | hy
    · exact Or.inl (Or.inr ⟨hx, Or.inl hy⟩)
    · rcases fltTotal_trichotomy p.z q.z with hz | hz | hz
      · exact Or.inl (Or.inr ⟨hx, Or.inr ⟨hy, hz⟩⟩)
      · exact absurd (by cases p; cases q; simp_all) hne
      · exact Or.inr (Or.inr ⟨hx.symm, Or.inr ⟨hy.symm, hz⟩⟩)
    · exact Or.inr (Or.inr ⟨hx.symm, Or.inl hy⟩)
  · exact Or.inr (Or.inl hx)

theorem ptLtLex_asymm {p q : Pt3} (h : ptLtLex p q = true) :
    ptLtLex q p = false := by
  cases hx : ptLtLex q p
  · rfl
  · exact absurd (ptLtLex_trans h hx) (by rw [ptLtLex_irrefl]; simp)

theorem ptLeLex_eq_true_iff (p q : Pt3) :
    ptLeLex p q = true ↔ ptLtLex p q = true ∨ p = q := by
  simp [ptLeLex, Bool.or_eq_true, decide_eq_true_eq]

theorem ptLeLex_total (p q : Pt3) :
    ptLeLex p q = true ∨ ptLeLex q p = true := by
  rw [ptLeLex_eq_true_iff, ptLeLex_eq_true_iff]
  by_cases h : p = q
  · exact Or.inl (Or.inr h)
  · rcases ptLtLex_total h with h1 | h1
    · exact Or.inl (Or.inl h1)
    · exact Or.inr (Or.inl h1)

theorem ptLeLex_trans {p q r : Pt3} (h1 : ptLeLex p q = true)
    (h2 : ptLeLex q r = true) : ptLeLex p r = true := by
  rw [ptLeLex_eq_true_iff] at h1 h2 ⊢
  rcases h1 with h1 | rfl
  · rcases h2 with h2 | rfl
    · exact Or.inl (ptLtLex_trans h1 h2)
    · exact Or.inl h1
  · exact h2

theorem ptLeLex_antisymm {p q : Pt3} (h1 : ptLeLex p q = true)
    (h2 : ptLeLex q p = true) : p = q := by
  rw [ptLeLex_eq_true_iff] at h1 h2
  rcases h1 with h1 | h1
  · rcases h2 with h2 | h2
    · exact absurd h1 (by rw [ptLtLex_asymm h2]; simp)
    · exact h2.symm
  · exact h1

instance (vs : List Pt3) : IsTotal Nat (vertexLe vs) :=
  ⟨fun i j => ptLeLex_total (vs.getD i ptZero) (vs.getD j ptZero)⟩

instance (vs : List Pt3) : IsTrans Nat (vertexLe vs) :=
  ⟨fun _ _ _ h1 h2 => ptLeLex_trans h1 h2⟩

/-! ### The sorted index permutation -/

theorem orderedIndices_perm (vs : List Pt3) :
    (orderedIndices vs).Perm (List.range vs.length) :=
  List.perm_insertionSort _ _

theorem orderedIndices_nodup (vs : List Pt3) : (orderedIndices vs).Nodup :=
  ((orderedIndices_perm vs).nodup_iff).mpr (List.nodup_range _)

theorem orderedIndices_mem (vs : List Pt3) (i : Nat) :
    i ∈ orderedIndices vs ↔ i < vs.length := by
  rw [(orderedIndices_perm vs).mem_iff, List.mem_range]

theorem orderedIndices_sorted (vs : List Pt3) :
    List.Sorted (vertexLe vs) (orderedIndices vs) :=
  List.sorted_insertionSort _ _

/-! ### The in-place scan equals the pure scan

The scan writes the sentinel only at indices it has already consumed;
since the sorted index list is duplicate-free, no comparison ever reads a
sentineled entry, so the stateful scan computes the same alias list as the
pure scan over the original positions. -/

theorem dedupGo_eq_pure (pos : Nat → Pt3) :
    ∀ (l : List Nat) (a : Nat) (vs : List Pt3) (al : List (Nat × Nat)),
      (a :: l).Nodup →
      (∀ k ∈ a :: l, vs.getD k ptZero = pos k) →
      dedupGo a l vs al
        = (sentinelize (aliasKeys (pureGo pos a l)) vs,
           (pureGo pos a l).reverse ++ al) := by
  intro l
  induction l with
  | nil =>
    intro a vs al _ _
    simp [dedupGo, pureGo, sentinelize, aliasKeys]
  | cons j rest ih =>
    intro a vs al hnd hagree
    have haj : a ≠ j := by
      have := (List.nodup_cons.mp hnd).1
      intro h
      exact this (h ▸ List.mem_cons_self j rest)
    have hjrest : j ∉ rest := by
      have := (List.nodup_cons.mp (List.nodup_cons.mp hnd).2).1
      exact this
    have harest : a ∉ rest := by
      have := (List.nodup_cons.mp hnd).1
      intro h
      exact this (List.mem_cons_of_mem j h)
    have heqc : ptEqF (vs.getD a ptZero) (vs.getD j ptZero)
        = ptEqF (pos a) (pos j) := by
      rw [hagree a (List.mem_cons_self a _),
          hagree j (List.mem_cons_of_mem a (List.mem_cons_self j rest))]
    show (if ptEqF (vs.getD a ptZero) (vs.getD j ptZero) = true then
            dedupGo a rest (vs.set j infinite_point) ((j, a) :: al)
          else dedupGo j rest vs al) = _
    rw [heqc]
    by_cases hpq : ptEqF (pos a) (pos j) = true
    · rw [if_pos hpq]
      have hrec := ih a (vs.set j infinite_point) ((j, a) :: al)
        (by
          rw [List.nodup_cons]
          exact ⟨harest, (List.nodup_cons.mp (List.nodup_cons.mp hnd).2).2⟩)
        (by
          intro k hk
          have hkj : j ≠ k := by
            rcases List.mem_cons.mp hk with rfl | hk2
            · exact fun h => haj h.symm
            · exact fun h => hjrest (h ▸ hk2)
          rw [getD_set_ne vs j k infinite_point ptZero hkj]
          exact hagree k (by
            rcases List.mem_cons.mp hk with rfl | hk2
            · exact List.mem_cons_self k _
            · exact List.mem_cons_of_mem _ (List.mem_cons_of_mem j hk2)))
      rw [hrec]
      show (sentinelize (aliasKeys (pureGo pos a rest)) (vs.set j infinite_point),
            (pureGo pos a rest).reverse ++ ((j, a) :: al))
          = (sentinelize (aliasKeys (pureGo pos a (j :: rest))) vs,
             (pureGo pos a (j :: rest)).reverse ++ al)
      have hP : pureGo pos a (j :: rest) = (j, a) :: pureGo pos a rest := by
        show (if ptEqF (pos a) (pos j) = true then (j, a) :: pureGo pos a rest
              else pureGo pos j rest) = _
        rw [if_pos hpq]
      rw [hP]
      refine Prod.ext_iff.mpr ⟨rfl, ?_⟩
      show (pureGo pos a rest).reverse ++ ((j, a) :: al)
          = ((j, a) :: pureGo pos a rest).reverse ++ al
      rw [List.reverse_cons, List.append_assoc, List.singleton_append]
    · rw [if_neg hpq]
      have hrec := ih j vs al
        (List.nodup_cons.mp hnd).2
        (fun k hk => hagree k (List.mem_cons_of_mem a hk))
      rw [hrec]
      have hP : pureGo pos a (j :: rest) = pureGo pos j rest := by
        show (if ptEqF (pos a) (pos j) = true then (j, a) :: pureGo pos a rest
              else pureGo pos j rest) = _
        rw [if_neg hpq]
      rw [hP]

theorem dedupScan_eq_pure (pos : Nat → Pt3) (l : List Nat) (vs : List Pt3)
    (al : List (Nat × Nat)) (hnd : l.Nodup)
    (hagree : ∀ k ∈ l, vs.getD k ptZero = pos k) :
    dedupScan l vs al
      = (sentinelize (aliasKeys (pureScan pos l)) vs,
         (pureScan pos l).reverse ++ al) := by
  cases l with
  | nil => simp [dedupScan, pureScan, sentinelize, aliasKeys]
  | cons a rest => exact dedupGo_eq_pure pos rest a vs al hnd hagree

/-! ### Facts about the pure scan -/

theorem pureGo_subset (pos : Nat → Pt3) :
    ∀ (l : List Nat) (a : Nat) (x c : Nat),
      (x, c) ∈ pureGo pos a l → x ∈ l ∧ (c = a ∨ c ∈ l) := by
  intro l
  induction l with
  | nil => intro a x c h; simp [pureGo] at h
  | cons j rest ih =>
    intro a x c h
    by_cases hpq : ptEqF (pos a) (pos j) = true
    · rw [show pureGo pos a (j :: rest) = (j, a) :: pureGo pos a rest from by
        simp [pureGo, hpq]] at h
      rcases List.mem_cons.mp h with heq | h2
      · obtain ⟨rfl, rfl⟩ := Prod.mk.injEq .. ▸ (Prod.ext_iff.mp heq)
        exact ⟨List.mem_cons_self _ _, Or.inl rfl⟩
      · obtain ⟨hx, hc⟩ := ih a x c h2
        exact ⟨List.mem_cons_of_mem j hx,
               hc.imp id (List.mem_cons_of_mem j)⟩
    · rw [show pureGo pos a (j :: rest) = pureGo pos j rest from by
        simp [pureGo, hpq]] at h
      obtain ⟨hx, hc⟩ := ih j x c h
      refine ⟨List.mem_cons_of_mem j hx, Or.inr ?_⟩
      rcases hc with rfl | hc
      · exact List.mem_cons_self _ _
      · exact List.mem_cons_of_mem j hc

theorem pureGo_peq (pos : Nat → Pt3) :
    ∀ (l : List Nat) (a : Nat) (x c : Nat),
      (x, c) ∈ pureGo pos a l → ptEqF (pos c) (pos x) = true := by
  intro l
  induction l with
  | nil => intro a x c h; simp [pureGo] at h
  | cons j rest ih =>
    intro a x c h
    by_cases hpq : ptEqF (pos a) (pos j) = true
    · rw [show pureGo pos a (j :: rest) = (j, a) :: pureGo pos a rest from by
        simp [pureGo, hpq]] at h
      rcases List.mem_cons.mp h with heq | h2
      · obtain ⟨rfl, rfl⟩ := Prod.ext_iff.mp heq
        exact hpq
      · exact ih a x c h2
    · rw [show pureGo pos a (j :: rest) = pureGo pos j rest from by
        simp [pureGo, hpq]] at h
      exact ih j x c h

theorem mem_aliasKeys (al : List (Nat × Nat)) (x : Nat) :
    x ∈ aliasKeys al ↔ ∃ c, (x, c) ∈ al := by
  unfold aliasKeys
  rw [List.mem_map]
  constructor
  · rintro ⟨⟨x1, c⟩, hm, rfl⟩
    exact ⟨c, hm⟩
  · rintro ⟨c, hm⟩
    exact ⟨(x, c), hm, rfl⟩

theorem pureGo_keys_subset (pos : Nat → Pt3) (l : List Nat) (a : Nat) :
    ∀ x ∈ aliasKeys (pureGo pos a l), x ∈ l := by
  intro x hx
  obtain ⟨c, hm⟩ := (mem_aliasKeys _ x).mp hx
  exact (pureGo_subset pos l a x c hm).1

theorem pureGo_keys_nodup (pos : Nat → Pt3) :
    ∀ (l : List Nat) (a : Nat), l.Nodup → (aliasKeys (pureGo pos a l)).Nodup := by
  intro l
  induction l with
  | nil => intro a _; simp [pureGo, aliasKeys]
  | cons j rest ih =>
    intro a hnd
    by_cases hpq : ptEqF (pos a) (pos j) = true
    · rw [show pureGo pos a (j :: rest) = (j, a) :: pureGo pos a rest from by
        simp [pureGo, hpq]]
      show ((j, a).1 :: aliasKeys (pureGo pos a rest)).Nodup
      rw [List.nodup_cons]
      exact ⟨fun h => (List.nodup_cons.mp hnd).1 (pureGo_keys_subset pos rest a j h),
             ih a (List.nodup_cons.mp hnd).2⟩
    · rw [show pureGo pos a (j :: rest) = pureGo pos j rest from by
        simp [pureGo, hpq]]
      exact ih j (List.nodup_cons.mp hnd).2

theorem pureGo_canonical_not_key (pos : Nat → Pt3) :
    ∀ (l : List Nat) (a : Nat), (a :: l).Nodup →
      ∀ x c, (x, c) ∈ pureGo pos a l → c ∉ aliasKeys (pureGo pos a l) := by
  intro l
  induction l with
  | nil => intro a _ x c h; simp [pureGo] at h
  | cons j rest ih =>
    intro a hnd x c h
    have haj : a ∉ j :: rest := (List.nodup_cons.mp hnd).1
    have hjr : j ∉ rest := (List.nodup_cons.mp (List.nodup_cons.mp hnd).2).1
    by_cases hpq : ptEqF (pos a) (pos j) = true
    · rw [show pureGo pos a (j :: rest) = (j, a) :: pureGo pos a rest from by
        simp [pureGo, hpq]] at h ⊢
      have hkeys : aliasKeys ((j, a) :: pureGo pos a rest)
          = j :: aliasKeys (pureGo pos a rest) := rfl
      rw [hkeys]
      have hanotrest : a ∉ aliasKeys (pureGo pos a rest) :=
        fun hk => haj (List.mem_cons_of_mem j (pureGo_keys_subset pos rest a a hk))
      rcases List.mem_cons.mp h with heq | h2
      · obtain ⟨rfl, rfl⟩ := Prod.ext_iff.mp heq
        intro hmem
        rcases List.mem_cons.mp hmem with rfl | h3
        · exact haj (List.mem_cons_self _ _)
        · exact hanotrest h3
      · have hna : (a :: rest).Nodup := by
          rw [List.nodup_cons]
          exact ⟨fun hh => haj (List.mem_cons_of_mem j hh),
                 (List.nodup_cons.mp (List.nodup_cons.mp hnd).2).2⟩
        have hc := ih a hna x c h2
        intro hmem
        rcases List.mem_cons.mp hmem with rfl | h3
        · obtain ⟨hx, hcc⟩ := pureGo_subset pos rest a x c h2
          rcases hcc with rfl | hcr
          · exact haj (List.mem_cons_self _ _)
          · exact hjr hcr
        · exact hc h3
    · rw [show pureGo pos a (j :: rest) = pureGo pos j rest from by
        simp [pureGo, hpq]] at h ⊢
      exact ih j (List.nodup_cons.mp hnd).2 x c h

/-- Positions are propagated structurally along a run: a pair recorded by
the scan relates structurally equal, non-NaN positions. -/
theorem pureGo_pos_eq (pos : Nat → Pt3) (l : List Nat) (a x c : Nat)
    (h : (x, c) ∈ pureGo pos a l) :
    pos c = pos x ∧ ptIsNan (pos c) = false :=
  (ptEqF_eq_true_iff _ _).mp (pureGo_peq pos l a x c h)

/-- Completeness: two distinct indices of the sorted list whose positions
compare float-equal cannot both escape the alias map. -/
theorem pureGo_complete (pos : Nat → Pt3) :
    ∀ (l : List Nat) (a : Nat), (a :: l).Nodup →
      List.Sorted (fun i j => ptLeLex (pos i) (pos j) = true) (a :: l) →
      ∀ x y, x ∈ a :: l → y ∈ a :: l → x ≠ y →
        ptEqF (pos x) (pos y) = true →
        x ∈ aliasKeys (pureGo pos a l) ∨ y ∈ aliasKeys (pureGo pos a l) := by
  intro l
  induction l with
  | nil =>
    intro a _ _ x y hx hy hne _
    rcases List.mem_singleton.mp hx with rfl
    rcases List.mem_singleton.mp hy with rfl
    exact absurd rfl hne
  | cons j rest ih =>
    intro a hnd hsort x y hx hy hne hpeq
    by_cases hpq : ptEqF (pos a) (pos j) = true
    · rw [show pureGo pos a (j :: rest) = (j, a) :: pureGo pos a rest from by
        simp [pureGo, hpq]]
      have hkeys : aliasKeys ((j, a) :: pureGo pos a rest)
          = j :: aliasKeys (pureGo pos a rest) := rfl
      rw [hkeys]
      by_cases hxj : x = j
      · exact Or.inl (hxj ▸ List.mem_cons_self j _)
      by_cases hyj : y = j
      · exact Or.inr (hyj ▸ List.mem_cons_self j _)
      have hna : (a :: rest).Nodup := by
        rw [List.nodup_cons]
        exact ⟨fun hh => (List.nodup_cons.mp hnd).1 (List.mem_cons_of_mem j hh),
               (List.nodup_cons.mp (List.nodup_cons.mp hnd).2).2⟩
      have hsa : List.Sorted (fun i k => ptLeLex (pos i) (pos k) = true) (a :: rest) := by
        rw [List.sorted_cons] at hsort ⊢
        exact ⟨fun b hb => hsort.1 b (List.mem_cons_of_mem j hb),
               (List.sorted_cons.mp hsort.2).2⟩
      have hx2 : x ∈ a :: rest := by
        rcases List.mem_cons.mp hx with rfl | hx2
        · exact List.mem_cons_self _ _
        · rcases List.mem_cons.mp hx2 with rfl | hx3
          · exact absurd rfl hxj
          · exact List.mem_cons_of_mem a hx3
      have hy2 : y ∈ a :: rest := by
        rcases List.mem_cons.mp hy with rfl | hy2
        · exact List.mem_cons_self _ _
        · rcases List.mem_cons.mp hy2 with rfl | hy3
          · exact absurd rfl hyj
          · exact List.mem_cons_of_mem a hy3
      rcases ih a hna hsa x y hx2 hy2 hne hpeq with h | h
      · exact Or.inl (List.mem_cons_of_mem j h)
      · exact Or.inr (List.mem_cons_of_mem j h)
    · rw [show pureGo pos a (j :: rest) = pureGo pos j rest from by
        simp [pureGo, hpq]]
      -- a cannot be float-equal to anything in the tail when it is not
      -- float-equal to j: the order would force equality of positions.
      have hnoteq : ∀ z ∈ j :: rest, ptEqF (pos a) (pos z) = true → False := by
        intro z hz hpz
        obtain ⟨heqz, hnanz⟩ := (ptEqF_eq_true_iff _ _).mp hpz
        have haj2 : ptLeLex (pos a) (pos j) = true := by
          rw [List.sorted_cons] at hsort
          exact hsort.1 j (List.mem_cons_self j rest)
        have hjz : ptLeLex (pos j) (pos z) = true := by
          rcases List.mem_cons.mp hz with rfl | hz2
          · rw [ptLeLex_eq_true_iff]; exact Or.inr rfl
          · rw [List.sorted_cons] at hsort
            exact (List.sorted_cons.mp hsort.2).1 z hz2
        have hza : ptLeLex (pos z) (pos a) = true := by
          rw [← heqz, ptLeLex_eq_true_iff]
          exact Or.inr rfl
        have hja : pos j = pos a := ptLeLex_antisymm (ptLeLex_trans hjz hza) haj2
        exact absurd (ptEqF_of_eq_finite (pos a) (pos j) hja.symm hnanz) hpq
      by_cases hxa : x = a
      · subst hxa
        have hyx : y ∈ j :: rest := by
          rcases List.mem_cons.mp hy with rfl | hy2
          · exact absurd rfl hne
          · exact hy2
        exact absurd hpeq (fun hp => hnoteq y hyx hp)
      by_cases hya : y = a
      · subst hya
        have hxx : x ∈ j :: rest := by
          rcases List.mem_cons.mp hx with rfl | hx2
          · exact absurd rfl (fun h => hne h.symm)
          · exact hx2
        have hsymm : ptEqF (pos y) (pos x) = true := by
          obtain ⟨he, hnan⟩ := (ptEqF_eq_true_iff _ _).mp hpeq
          exact ptEqF_of_eq_finite _ _ he.symm (he ▸ hnan)
        exact absurd hsymm (fun hp => hnoteq x hxx hp)
      · have hx2 : x ∈ j :: rest := by
          rcases List.mem_cons.mp hx with rfl | hx2
          · exact absurd rfl hxa
          · exact hx2
        have hy2 : y ∈ j :: rest := by
          rcases List.mem_cons.mp hy with rfl | hy2
          · exact absurd rfl hya
          · exact hy2
        exact ih j (List.nodup_cons.mp hnd).2 (List.sorted_cons.mp hsort).2
          x y hx2 hy2 hne hpeq

/-- On a list of pairwise float-unequal positions, the scan records
nothing. -/
theorem pureGo_nil_of_distinct (pos : Nat → Pt3) :
    ∀ (l : List Nat) (a : Nat), (a :: l).Nodup →
      (∀ x ∈ a :: l, ∀ y ∈ a :: l, x ≠ y → ptEqF (pos x) (pos y) = false) →
      pureGo pos a l = [] := by
  intro l
  induction l with
  | nil => intro a _ _; rfl
  | cons j rest ih =>
    intro a hnd hdist
    have haj : a ≠ j := by
      intro h
      exact (List.nodup_cons.mp hnd).1 (h ▸ List.mem_cons_self j rest)
    have hpq : ptEqF (pos a) (pos j) = false :=
      hdist a (List.mem_cons_self a _) j
        (List.mem_cons_of_mem a (List.mem_cons_self j rest)) haj
    rw [show pureGo pos a (j :: rest) = pureGo pos j rest from by
      simp [pureGo, hpq]]
    exact ih j (List.nodup_cons.mp hnd).2
      (fun x hx y hy hne =>
        hdist x (List.mem_cons_of_mem a hx) y (List.mem_cons_of_mem a hy) hne)

/-! ### Lifting to `pureScan` -/

theorem pureScan_subset (pos : Nat → Pt3) (l : List Nat) (x c : Nat)
    (h : (x, c) ∈ pureScan pos l) : x ∈ l ∧ c ∈ l := by
  cases l with
  | nil => simp [pureScan] at h
  | cons a rest =>
    obtain ⟨hx, hc⟩ := pureGo_subset pos rest a x c h
    refine ⟨List.mem_cons_of_mem a hx, ?_⟩
    rcases hc with rfl | hc
    · exact List.mem_cons_self _ _
    · exact List.mem_cons_of_mem a hc

theorem pureScan_pos_eq (pos : Nat → Pt3) (l : List Nat) (x c : Nat)
    (h : (x, c) ∈ pureScan pos l) :
    pos c = pos x ∧ ptIsNan (pos c) = false := by
  cases l with
  | nil => simp [pureScan] at h
  | cons a rest => exact pureGo_pos_eq pos rest a x c h

theorem pureScan_keys_nodup (pos : Nat → Pt3) (l : List Nat) (hnd : l.Nodup) :
    (aliasKeys (pureScan pos l)).Nodup := by
  cases l with
  | nil => simp [pureScan, aliasKeys]
  | cons a rest => exact pureGo_keys_nodup pos rest a (List.nodup_cons.mp hnd).2

theorem pureScan_canonical_not_key (pos : Nat → Pt3) (l : List Nat)
    (hnd : l.Nodup) (x c : Nat) (h : (x, c) ∈ pureScan pos l) :
    c ∉ aliasKeys (pureScan pos l) := by
  cases l with
  | nil => simp [pureScan] at h
  | cons a rest => exact pureGo_canonical_not_key pos rest a hnd x c h

theorem pureScan_complete (pos : Nat → Pt3) (l : List Nat) (hnd : l.Nodup)
    (hsort : List.Sorted (fun i j => ptLeLex (pos i) (pos j) = true) l)
    (x y : Nat) (hx : x ∈ l) (hy : y ∈ l) (hne : x ≠ y)
    (hpeq : ptEqF (pos x) (pos y) = true) :
    x ∈ aliasKeys (pureScan pos l) ∨ y ∈ aliasKeys (pureScan pos l) := by
  cases l with
  | nil => simp at hx
  | cons a rest => exact pureGo_complete pos rest a hnd hsort x y hx hy hne hpeq

theorem pureScan_nil_of_distinct (pos : Nat → Pt3) (l : List Nat)
    (hnd : l.Nodup)
    (hdist : ∀ x ∈ l, ∀ y ∈ l, x ≠ y → ptEqF (pos x) (pos y) = false) :
    pureScan pos l = [] := by
  cases l with
  | nil => rfl
  | cons a rest => exact pureGo_nil_of_distinct pos rest a hnd hdist

/-! ### Association-list lookup with duplicate-free keys -/

theorem lookup_eq_some_iff (al : List (Nat × Nat)) (hnd : (aliasKeys al).Nodup)
    (k c : Nat) : al.lookup k = some c ↔ (k, c) ∈ al := by
  induction al with
  | nil => simp [List.lookup]
  | cons p t ih =>
    obtain ⟨k1, c1⟩ := p
    have hk1 : k1 ∉ aliasKeys t := (List.nodup_cons.mp hnd).1
    have hnt : (aliasKeys t).Nodup := (List.nodup_cons.mp hnd).2
    by_cases hk : k = k1
    · subst hk
      rw [List.lookup_cons]
      simp only [beq_self_eq_true]
      constructor
      · intro h
        obtain rfl : c1 = c := by simpa using h
        exact List.mem_cons_self _ _
      · intro h
        rcases List.mem_cons.mp h with heq | h2
        · obtain ⟨-, rfl⟩ := Prod.ext_iff.mp heq.symm
          rfl
        · exact absurd ((mem_aliasKeys t k).mpr ⟨c, h2⟩) hk1
    · rw [List.lookup_cons]
      have : (k == k1) = false := by simp [hk]
      rw [this]
      rw [ih hnt]
      constructor
      · exact List.mem_cons_of_mem _
      · intro h
        rcases List.mem_cons.mp h with heq | h2
        · exact absurd (congrArg Prod.fst heq) (by simpa using hk)
        · exact h2

theorem lookup_eq_none_iff (al : List (Nat × Nat)) (k : Nat) :
    al.lookup k = none ↔ k ∉ aliasKeys al := by
  induction al with
  | nil => simp [List.lookup, aliasKeys]
  | cons p t ih =>
    obtain ⟨k1, c1⟩ := p
    rw [List.lookup_cons]
    by_cases hk : k = k1
    · subst hk
      simp [aliasKeys]
    · have hbeq : (k == k1) = false := by simp [hk]
      rw [hbeq]
      show t.lookup k = none ↔ k ∉ aliasKeys ((k1, c1) :: t)
      rw [ih]
      constructor
      · intro h hmem
        rcases List.mem_cons.mp hmem with heq | h2
        · exact hk heq
        · exact h h2
      · intro h h2
        exact h (List.mem_cons_of_mem _ h2)

/-! ### Sentinelization -/

theorem sentinelize_length (ks : List Nat) :
    ∀ vs : List Pt3, (sentinelize ks vs).length = vs.length := by
  induction ks with
  | nil => intro vs; rfl
  | cons k t ih =>
    intro vs
    show (sentinelize t (vs.set k infinite_point)).length = _
    rw [ih, List.length_set]

theorem getD_sentinelize_not_mem (ks : List Nat) :
    ∀ (vs : List Pt3) (k : Nat), k ∉ ks →
      (sentinelize ks vs).getD k ptZero = vs.getD k ptZero := by
  induction ks with
  | nil => intro vs k _; rfl
  | cons k1 t ih =>
    intro vs k hk
    show (sentinelize t (vs.set k1 infinite_point)).getD k ptZero = _
    rw [ih _ k (fun h => hk (List.mem_cons_of_mem k1 h)),
        getD_set_ne vs k1 k infinite_point ptZero
          (fun h => hk (h ▸ List.mem_cons_self k1 t))]

theorem getD_sentinelize_mem (ks : List Nat) :
    ∀ (vs : List Pt3) (k : Nat), k ∈ ks → k < vs.length →
      (sentinelize ks vs).getD k ptZero = infinite_point := by
  induction ks with
  | nil => intro vs k h _; simp at h
  | cons k1 t ih =>
    intro vs k hk hlt
    show (sentinelize t (vs.set k1 infinite_point)).getD k ptZero = _
    by_cases hkt : k ∈ t
    · exact ih _ k hkt (by rw [List.length_set]; exact hlt)
    · have hk1 : k = k1 := by
        rcases List.mem_cons.mp hk with h | h
        · exact h
        · exact absurd h hkt
      subst hk1
      rw [getD_sentinelize_not_mem t _ k hkt, getD_set_self vs k infinite_point ptZero hlt]

/-! ### Mesh-level characterization of the deduplication pass -/

theorem dedupResult_eq (m : Mesh) :
    dedupResult m
      = (sentinelize (aliasKeys (meshAliases m)) m.vertices,
         (meshAliases m).reverse) := by
  unfold dedupResult meshAliases
  rw [dedupScan_eq_pure (meshPos m) (orderedIndices m.vertices) m.vertices []
      (orderedIndices_nodup m.vertices) (fun k _ => rfl)]
  rw [List.append_nil]

theorem dedupAliasMap_eq (m : Mesh) :
    dedupAliasMap m = (meshAliases m).reverse := by
  unfold dedupAliasMap
  rw [dedupResult_eq]

theorem mem_dedupAliasMap_iff (m : Mesh) (p : Nat × Nat) :
    p ∈ dedupAliasMap m ↔ p ∈ meshAliases m := by
  rw [dedupAliasMap_eq, List.mem_reverse]

theorem mem_aliasKeys_dedupAliasMap_iff (m : Mesh) (x : Nat) :
    x ∈ aliasKeys (dedupAliasMap m) ↔ x ∈ aliasKeys (meshAliases m) := by
  rw [mem_aliasKeys, mem_aliasKeys]
  constructor
  · rintro ⟨c, hc⟩
    exact ⟨c, (mem_dedupAliasMap_iff m _).mp hc⟩
  · rintro ⟨c, hc⟩
    exact ⟨c, (mem_dedupAliasMap_iff m _).mpr hc⟩

theorem dedupAliasMap_keys_nodup (m : Mesh) :
    (aliasKeys (dedupAliasMap m)).Nodup := by
  rw [dedupAliasMap_eq]
  show ((meshAliases m).reverse.map Prod.fst).Nodup
  rw [List.map_reverse, List.nodup_reverse]
  exact pureScan_keys_nodup (meshPos m) (orderedIndices m.vertices)
    (orderedIndices_nodup m.vertices)

theorem removeDuplicatedVertices_vertices (m : Mesh) :
    (removeDuplicatedVertices m).vertices
      = sentinelize (aliasKeys (meshAliases m)) m.vertices := by
  show (dedupResult m).1 = _
  rw [dedupResult_eq]

theorem removeDuplicatedVertices_faces (m : Mesh) :
    (removeDuplicatedVertices m).faces
      = m.faces.map (rewriteFace (dedupAliasMap m)) := rfl

theorem rewriteFace_indicesList (al : List (Nat × Nat)) (f : Face) :
    (rewriteFace al f).indicesList = f.indicesList.map (rewriteIdx al) := rfl

theorem rewriteIdx_mem (al : List (Nat × Nat)) (hnd : (aliasKeys al).Nodup)
    (idx : Int) (h0 : 0 ≤ idx) (c : Nat) (hmem : (idx.toNat, c) ∈ al) :
    rewriteIdx al idx = (c : Int) := by
  unfold rewriteIdx
  rw [if_neg (not_lt.mpr h0), (lookup_eq_some_iff al hnd _ c).mpr hmem]

theorem rewriteIdx_not_mem (al : List (Nat × Nat)) (idx : Int)
    (hk : idx.toNat ∉ aliasKeys al) : rewriteIdx al idx = idx := by
  unfold rewriteIdx
  by_cases h : idx < 0
  · rw [if_pos h]
  · rw [if_neg h, (lookup_eq_none_iff al idx.toNat).mpr hk]

theorem meshAliases_bounds (m : Mesh) (x c : Nat)
    (h : (x, c) ∈ meshAliases m) :
    x < m.vertices.length ∧ c < m.vertices.length := by
  obtain ⟨hx, hc⟩ := pureScan_subset _ _ x c h
  exact ⟨(orderedIndices_mem _ x).mp hx, (orderedIndices_mem _ c).mp hc⟩

/-- A vertex referenced by a face of the deduplicated mesh is in range
and is not an aliased duplicate. -/
theorem dedup_referenced_not_key (m : Mesh) (hval : ValidFaces m) (i : Nat)
    (href : Referenced (removeDuplicatedVertices m) i) :
    i < m.vertices.length ∧ i ∉ aliasKeys (meshAliases m) := by
  obtain ⟨f', hf', hidx⟩ := href
  rw [removeDuplicatedVertices_faces] at hf'
  obtain ⟨f, hf, rfl⟩ := List.mem_map.mp hf'
  rw [rewriteFace_indicesList] at hidx
  obtain ⟨idx, hidxmem, hre⟩ := List.mem_map.mp hidx
  obtain ⟨hge, hlt⟩ := hval f hf idx hidxmem
  by_cases hk : idx.toNat ∈ aliasKeys (dedupAliasMap m)
  · obtain ⟨c, hc⟩ := (mem_aliasKeys _ _).mp hk
    have heq : rewriteIdx (dedupAliasMap m) idx = (c : Int) :=
      rewriteIdx_mem _ (dedupAliasMap_keys_nodup m) idx hge c hc
    have hi : i = c := by
      have : (i : Int) = (c : Int) := by rw [← hre]; exact heq
      exact_mod_cast this
    subst hi
    have hcm : (idx.toNat, i) ∈ meshAliases m := (mem_dedupAliasMap_iff m _).mp hc
    refine ⟨(meshAliases_bounds m idx.toNat i hcm).2, ?_⟩
    exact pureScan_canonical_not_key _ _ (orderedIndices_nodup _) _ _ hcm
  · have hk2 : idx.toNat ∉ aliasKeys (dedupAliasMap m) := hk
    have heq : rewriteIdx (dedupAliasMap m) idx = idx := rewriteIdx_not_mem _ idx hk2
    have hi : (i : Int) = idx := by rw [← hre]; exact heq
    have hi2 : i = idx.toNat := by omega
    subst hi2
    exact ⟨by omega, fun hm => hk ((mem_aliasKeys_dedupAliasMap_iff m _).mpr hm)⟩

/-- C2: on a mesh with valid face indices, after
`removeDuplicatedVertices`: the vertex array length is unchanged
(duplicates are sentineled, not removed); every index in the alias map
has its position overwritten with the non-finite sentinel point; every
alias pair joins vertices whose original positions were equal, and its
canonical index is itself not aliased; the faces are exactly the original
faces with every index in the alias map rewritten to its canonical index
(faces none of whose indices are aliased are untouched); no face of the
result references an aliased (sentineled) vertex; and no two distinct
vertices referenced by faces of the result compare equal in position. -/
theorem removeDuplicatedVertices_spec (m : Mesh) (hval : ValidFaces m) :
    (removeDuplicatedVertices m).vertices.length = m.vertices.length ∧
    (∀ p ∈ dedupAliasMap m,
        (removeDuplicatedVertices m).vertices.getD p.1 ptZero = infinite_point) ∧
    (∀ p ∈ dedupAliasMap m,
        m.vertices.getD p.2 ptZero = m.vertices.getD p.1 ptZero ∧
        p.1 < m.vertices.length ∧ p.2 < m.vertices.length ∧
        p.2 ∉ aliasKeys (dedupAliasMap m)) ∧
    ((removeDuplicatedVertices m).faces
        = m.faces.map (rewriteFace (dedupAliasMap m)) ∧
     ∀ f ∈ m.faces,
       (∀ idx ∈ f.indicesList, idx.toNat ∉ aliasKeys (dedupAliasMap m)) →
       rewriteFace (dedupAliasMap m) f = f) ∧
    (∀ i : Nat, Referenced (removeDuplicatedVertices m) i →
        i ∉ aliasKeys (dedupAliasMap m)) ∧
    (∀ i j : Nat, i ≠ j →
        Referenced (removeDuplicatedVertices m) i →
        Referenced (removeDuplicatedVertices m) j →
        ptEqF ((removeDuplicatedVertices m).vertices.getD i ptZero)
              ((removeDuplicatedVertices m).vertices.getD j ptZero) = false) := by
  refine ⟨?_, ?_, ?_, ⟨removeDuplicatedVertices_faces m, ?_⟩, ?_, ?_⟩
  · exact removeDuplicatedVertices_length m
  · rintro ⟨x, c⟩ hp
    have hm : (x, c) ∈ meshAliases m := (mem_dedupAliasMap_iff m _).mp hp
    rw [removeDuplicatedVertices_vertices]
    exact getD_sentinelize_mem _ m.vertices x
      ((mem_aliasKeys _ _).mpr ⟨c, hm⟩) (meshAliases_bounds m x c hm).1
  · rintro ⟨x, c⟩ hp
    have hm : (x, c) ∈ meshAliases m := (mem_dedupAliasMap_iff m _).mp hp
    obtain ⟨hposeq, _⟩ := pureScan_pos_eq _ _ x c hm
    refine ⟨hposeq, (meshAliases_bounds m x c hm).1, (meshAliases_bounds m x c hm).2, ?_⟩
    intro hk
    exact pureScan_canonical_not_key _ _ (orderedIndices_nodup _) _ _ hm
      ((mem_aliasKeys_dedupAliasMap_iff m _).mp hk)
  · intro f _ hout
    have h0 : rewriteIdx (dedupAliasMap m) f.i0 = f.i0 :=
      rewriteIdx_not_mem _ f.i0 (hout f.i0 (by simp [Face.indicesList]))
    have h1 : rewriteIdx (dedupAliasMap m) f.i1 = f.i1 :=
      rewriteIdx_not_mem _ f.i1 (hout f.i1 (by simp [Face.indicesList]))
    have h2 : rewriteIdx (dedupAliasMap m) f.i2 = f.i2 :=
      rewriteIdx_not_mem _ f.i2 (hout f.i2 (by simp [Face.indicesList]))
    cases f
    simp only [rewriteFace, Face.mk.injEq]
    exact ⟨h0, h1, h2⟩
  · intro i href
    intro hk
    exact (dedup_referenced_not_key m hval i href).2
      ((mem_aliasKeys_dedupAliasMap_iff m _).mp hk)
  · intro i j hne hri hrj
    obtain ⟨hilt, hik⟩ := dedup_referenced_not_key m hval i hri
    obtain ⟨hjlt, hjk⟩ := dedup_referenced_not_key m hval j hrj
    have hvi : (removeDuplicatedVertices m).vertices.getD i ptZero
        = meshPos m i := by
      rw [removeDuplicatedVertices_vertices]
      exact getD_sentinelize_not_mem _ m.vertices i hik
    have hvj : (removeDuplicatedVertices m).vertices.getD j ptZero
        = meshPos m j := by
      rw [removeDuplicatedVertices_vertices]
      exact getD_sentinelize_not_mem _ m.vertices j hjk
    rw [hvi, hvj]
    cases hpq : ptEqF (meshPos m i) (meshPos m j)
    · rfl
    · exfalso
      rcases pureScan_complete (meshPos m) (orderedIndices m.vertices)
          (orderedIndices_nodup _) (orderedIndices_sorted m.vertices) i j
          ((orderedIndices_mem _ i).mpr hilt) ((orderedIndices_mem _ j).mpr hjlt)
          hne hpq with h | h
      · exact hik h
      · exact hjk h

/-- C2 witness: at the concrete duplicated-vertex mesh, the pass keeps
the array length, and no vertex referenced after the pass is aliased. -/
theorem removeDuplicatedVertices_spec_witness :
    (removeDuplicatedVertices dupMesh).vertices.length = dupMesh.vertices.length ∧
    (∀ p ∈ dedupAliasMap dupMesh,
        (removeDuplicatedVertices dupMesh).vertices.getD p.1 ptZero
          = infinite_point) :=
  ⟨(removeDuplicatedVertices_spec dupMesh (by decide)).1,
   (removeDuplicatedVertices_spec dupMesh (by decide)).2.1⟩

/-! ### Claim C4: cleanup idempotence -/

/-- Deduplication sends valid faces referencing finite vertices to valid
faces referencing finite vertices. -/
theorem dedup_valid_finite (m : Mesh) (hval : ValidFaces m)
    (hfin : FacesReferenceFinite m) :
    ValidFaces (removeDuplicatedVertices m) ∧
    FacesReferenceFinite (removeDuplicatedVertices m) := by
  have hlen := removeDuplicatedVertices_length m
  have hslot : ∀ f ∈ m.faces, ∀ idx ∈ f.indicesList,
      0 ≤ rewriteIdx (dedupAliasMap m) idx ∧
      rewriteIdx (dedupAliasMap m) idx < (m.vertices.length : Int) ∧
      ptIsNan ((removeDuplicatedVertices m).vertices.getD
        (rewriteIdx (dedupAliasMap m) idx).toNat ptZero) = false := by
    intro f hf idx hidx
    obtain ⟨hge, hlt⟩ := hval f hf idx hidx
    by_cases hk : idx.toNat ∈ aliasKeys (dedupAliasMap m)
    · obtain ⟨c, hc⟩ := (mem_aliasKeys _ _).mp hk
      have hcm : (idx.toNat, c) ∈ meshAliases m := (mem_dedupAliasMap_iff m _).mp hc
      have heq : rewriteIdx (dedupAliasMap m) idx = (c : Int) :=
        rewriteIdx_mem _ (dedupAliasMap_keys_nodup m) idx hge c hc
      have hcb := (meshAliases_bounds m idx.toNat c hcm).2
      have hcnk : c ∉ aliasKeys (meshAliases m) :=
        pureScan_canonical_not_key _ _ (orderedIndices_nodup _) _ _ hcm
      obtain ⟨-, hcfin⟩ := pureScan_pos_eq _ _ idx.toNat c hcm
      refine ⟨by rw [heq]; exact Int.ofNat_nonneg c, by rw [heq]; exact_mod_cast hcb, ?_⟩
      rw [heq, removeDuplicatedVertices_vertices]
      show ptIsNan ((sentinelize _ m.vertices).getD (Int.toNat c) ptZero) = false
      rw [show (Int.toNat (c : Int)) = c by omega,
          getD_sentinelize_not_mem _ m.vertices c hcnk]
      exact hcfin
    · have heq : rewriteIdx (dedupAliasMap m) idx = idx := rewriteIdx_not_mem _ idx hk
      refine ⟨by rw [heq]; exact hge, by rw [heq]; exact hlt, ?_⟩
      rw [heq, removeDuplicatedVertices_vertices,
          getD_sentinelize_not_mem _ m.vertices idx.toNat
            (fun hh => hk ((mem_aliasKeys_dedupAliasMap_iff m _).mpr hh))]
      exact hfin f hf idx hidx
  constructor
  · intro f' hf' idx' hidx'
    rw [removeDuplicatedVertices_faces] at hf'
    obtain ⟨f, hf, rfl⟩ := List.mem_map.mp hf'
    rw [rewriteFace_indicesList] at hidx'
    obtain ⟨idx, hidxm, rfl⟩ := List.mem_map.mp hidx'
    have h := hslot f hf idx hidxm
    rw [hlen]
    exact ⟨h.1, h.2.1⟩
  · intro f' hf' idx' hidx'
    rw [removeDuplicatedVertices_faces] at hf'
    obtain ⟨f, hf, rfl⟩ := List.mem_map.mp hf'
    rw [rewriteFace_indicesList] at hidx'
    obtain ⟨idx, hidxm, rfl⟩ := List.mem_map.mp hidx'
    exact (hslot f hf idx hidxm).2.2

/-- After deduplication, two finite entries of the vertex array at
distinct positions are distinct values. -/
theorem dedup_vertices_pairwise (m : Mesh) :
    List.Pairwise (fun p q => ptIsNan p = false → ptIsNan q = false → p ≠ q)
      (removeDuplicatedVertices m).vertices := by
  rw [List.pairwise_iff_getElem]
  intro i j hi hj hij
  intro hpi hpj hcon
  have hlen := removeDuplicatedVertices_length m
  have hi2 : i < m.vertices.length := by rw [← hlen]; exact hi
  have hj2 : j < m.vertices.length := by rw [← hlen]; exact hj
  have hgi : (removeDuplicatedVertices m).vertices[i]
      = (removeDuplicatedVertices m).vertices.getD i ptZero :=
    (List.getD_eq_getElem _ ptZero hi).symm
  have hgj : (removeDuplicatedVertices m).vertices[j]
      = (removeDuplicatedVertices m).vertices.getD j ptZero :=
    (List.getD_eq_getElem _ ptZero hj).symm
  have hik : i ∉ aliasKeys (meshAliases m) := by
    intro hk
    have hvi : (removeDuplicatedVertices m).vertices.getD i ptZero
        = infinite_point := by
      rw [removeDuplicatedVertices_vertices]
      exact getD_sentinelize_mem _ m.vertices i hk hi2
    rw [hgi, hvi] at hpi
    simp [ptIsNan, fisnan, infinite_point] at hpi
  have hjk : j ∉ aliasKeys (meshAliases m) := by
    intro hk
    have hvj : (removeDuplicatedVertices m).vertices.getD j ptZero
        = infinite_point := by
      rw [removeDuplicatedVertices_vertices]
      exact getD_sentinelize_mem _ m.vertices j hk hj2
    rw [hgj, hvj] at hpj
    simp [ptIsNan, fisnan, infinite_point] at hpj
  have hvi : (removeDuplicatedVertices m).vertices[i] = meshPos m i := by
    rw [hgi, removeDuplicatedVertices_vertices]
    exact getD_sentinelize_not_mem _ m.vertices i hik
  have hvj : (removeDuplicatedVertices m).vertices[j] = meshPos m j := by
    rw [hgj, removeDuplicatedVertices_vertices]
    exact getD_sentinelize_not_mem _ m.vertices j hjk
  have hpeq : ptEqF (meshPos m i) (meshPos m j) = true := by
    refine ptEqF_of_eq_finite _ _ ?_ ?_
    · rw [← hvi, ← hvj, hcon]
    · rw [← hvi]; exact hpi
  rcases pureScan_complete (meshPos m) (orderedIndices m.vertices)
      (orderedIndices_nodup _) (orderedIndices_sorted m.vertices) i j
      ((orderedIndices_mem _ i).mpr hi2) ((orderedIndices_mem _ j).mpr hj2)
      (by omega) hpeq with h | h
  · exact hik h
  · exact hjk h

/-- The vertices of the full cleanup are duplicate-free. -/
theorem cleanup_vertices_nodup (m : Mesh) : (cleanup m).vertices.Nodup := by
  show ((removeDuplicatedVertices m).vertices.filter keepVertex).Nodup
  have hp := (dedup_vertices_pairwise m).filter keepVertex
  refine List.Pairwise.imp_of_mem ?_ hp
  intro a b ha hb hr
  have hfa : ptIsNan a = false := by
    have := (List.mem_filter.mp ha).2
    simpa [keepVertex] using this
  have hfb : ptIsNan b = false := by
    have := (List.mem_filter.mp hb).2
    simpa [keepVertex] using this
  exact hr hfa hfb

/-- Compaction establishes the attribute-length invariant. -/
theorem removeIsolated_meshInv (m : Mesh) : MeshInv (removeIsolatedVertices m) := by
  have hvlen := removeIsolatedVertices_vertices_length m
  have hattr : ∀ {α : Type} (xs : List α),
      (if decide (xs.length = m.vertices.length) = true
       then compactAttr m.vertices xs else []) ≠ [] →
      (if decide (xs.length = m.vertices.length) = true
       then compactAttr m.vertices xs else []).length
        = (removeIsolatedVertices m).vertices.length := by
    intro α xs hne
    by_cases hx : xs.length = m.vertices.length
    · rw [if_pos (decide_eq_true hx)] at hne ⊢
      rw [compactAttr_length m.vertices xs hx, hvlen]
    · rw [if_neg (by simpa using hx)] at hne
      exact absurd rfl hne
  exact ⟨fun h => hattr m.colors h, fun h => hattr m.normals h,
         fun h => hattr m.texcoords h⟩

/-- A mesh with duplicate-free, all-finite vertices is a fixed point of
the deduplication pass, whose alias map is empty. -/
theorem removeDuplicatedVertices_fixed (m : Mesh)
    (hnd : m.vertices.Nodup)
    (hfin : ∀ v ∈ m.vertices, ptIsNan v = false) :
    removeDuplicatedVertices m = m ∧ dedupAliasMap m = [] := by
  have hempty : meshAliases m = [] := by
    refine pureScan_nil_of_distinct _ _ (orderedIndices_nodup _) ?_
    intro x hx y hy hne
    have hx2 : x < m.vertices.length := (orderedIndices_mem _ x).mp hx
    have hy2 : y < m.vertices.length := (orderedIndices_mem _ y).mp hy
    cases hpq : ptEqF (meshPos m x) (meshPos m y)
    · rfl
    · exfalso
      obtain ⟨heq, -⟩ := (ptEqF_eq_true_iff _ _).mp hpq
      have hgx : meshPos m x = m.vertices[x] := List.getD_eq_getElem _ ptZero hx2
      have hgy : meshPos m y = m.vertices[y] := List.getD_eq_getElem _ ptZero hy2
      rw [hgx, hgy] at heq
      exact hne (hnd.getElem_inj_iff.mp heq)
  have hmap : dedupAliasMap m = [] := by
    rw [dedupAliasMap_eq, hempty]
    rfl
  refine ⟨?_, hmap⟩
  have hverts : (removeDuplicatedVertices m).vertices = m.vertices := by
    rw [removeDuplicatedVertices_vertices, hempty]
    rfl
  have hfaces : (removeDuplicatedVertices m).faces = m.faces := by
    rw [removeDuplicatedVertices_faces, hmap]
    calc m.faces.map (rewriteFace [])
        = m.faces.map id := List.map_congr_left fun x _ => rewriteFace_nil x
      _ = m.faces := List.map_id m.faces
  apply Mesh.ext hverts rfl rfl rfl hfaces rfl rfl

/-- A mesh with all-finite vertices, consistent attribute arrays and
in-range faces is a fixed point of the compaction pass. -/
theorem removeIsolatedVertices_fixed (m : Mesh)
    (hfin : ∀ v ∈ m.vertices, keepVertex v = true)
    (hc : m.colors = [] ∨ m.colors.length = m.vertices.length)
    (hn : m.normals = [] ∨ m.normals.length = m.vertices.length)
    (ht : m.texcoords = [] ∨ m.texcoords.length = m.vertices.length)
    (hfaces : ∀ f ∈ m.faces, ∀ idx ∈ f.indicesList,
      0 ≤ idx ∧ idx < (m.vertices.length : Int)) :
    removeIsolatedVertices m = m := by
  have hattr : ∀ {α : Type} (xs : List α),
      (xs = [] ∨ xs.length = m.vertices.length) →
      (if decide (xs.length = m.vertices.length) = true
       then compactAttr m.vertices xs else []) = xs := by
    intro α xs hx
    rcases hx with rfl | hlen
    · by_cases h : ([] : List α).length = m.vertices.length
      · rw [if_pos (decide_eq_true h)]
        simp [compactAttr, List.zip_nil_right]
      · rw [if_neg (by simpa using h)]
    · rw [if_pos (decide_eq_true hlen)]
      exact compactAttr_all_keep m.vertices xs hfin hlen
  have hverts : m.vertices.filter keepVertex = m.vertices :=
    List.filter_eq_self.mpr hfin
  have hface : m.faces.map (fun f =>
      (⟨remapFaceIndex m.vertices f.i0, remapFaceIndex m.vertices f.i1,
        remapFaceIndex m.vertices f.i2⟩ : Face)) = m.faces := by
    have hidx : ∀ f ∈ m.faces, ∀ idx ∈ f.indicesList,
        remapFaceIndex m.vertices idx = idx := by
      intro f hf idx hmem
      obtain ⟨hge, hlt⟩ := hfaces f hf idx hmem
      have hto : idx.toNat < m.vertices.length := by omega
      unfold remapFaceIndex
      rw [if_pos ⟨hge, hto⟩, newIndexOf_all_keep m.vertices hfin idx.toNat hto]
      omega
    calc m.faces.map _
        = m.faces.map id := by
          refine List.map_congr_left fun f hf => ?_
          have h0 := hidx f hf f.i0 (by simp [Face.indicesList])
          have h1 := hidx f hf f.i1 (by simp [Face.indicesList])
          have h2 := hidx f hf f.i2 (by simp [Face.indicesList])
          cases f
          simp only [id_eq, Face.mk.injEq]
          exact ⟨h0, h1, h2⟩
      _ = m.faces := List.map_id m.faces
  exact Mesh.ext hverts (hattr m.colors hc) (hattr m.normals hn)
    (hattr m.texcoords ht) hface rfl rfl

/-- C4: on a non-empty mesh whose faces are valid and reference
finite-position vertices (the data-model invariant), running
deduplication followed by compaction twice yields exactly the same mesh
as running the pair once: the second deduplication finds zero duplicates
(its alias map is empty and it returns the mesh unchanged), and the
second compaction drops zero vertices (the survivor count is the full
vertex count) and returns the mesh unchanged, faces included. -/
theorem cleanup_idempotent (m : Mesh) (hne : m.vertices ≠ [])
    (hval : ValidFaces m) (hfin : FacesReferenceFinite m) :
    removeDuplicatedVertices (cleanup m) = cleanup m ∧
    dedupAliasMap (cleanup m) = [] ∧
    survivorCount (cleanup m).vertices = (cleanup m).vertices.length ∧
    removeIsolatedVertices (cleanup m) = cleanup m ∧
    cleanup (cleanup m) = cleanup m := by
  have hd := dedup_valid_finite m hval hfin
  have hm1vf : ValidFaces (cleanup m) ∧ FacesReferenceFinite (cleanup m) :=
    removeIsolated_valid_finite (removeDuplicatedVertices m) hd.1 hd.2
  have hfinite : ∀ v ∈ (cleanup m).vertices, ptIsNan v = false :=
    mem_removeIsolatedVertices_finite (removeDuplicatedVertices m)
  have hkeep : ∀ v ∈ (cleanup m).vertices, keepVertex v = true := by
    intro v hv
    unfold keepVertex
    rw [hfinite v hv]
    rfl
  have hnd := cleanup_vertices_nodup m
  have hinv : MeshInv (cleanup m) := removeIsolated_meshInv (removeDuplicatedVertices m)
  have hcol : (cleanup m).colors = []
      ∨ (cleanup m).colors.length = (cleanup m).vertices.length := by
    by_cases h : (cleanup m).colors = []
    · exact Or.inl h
    · exact Or.inr (hinv.1 h)
  have hnor : (cleanup m).normals = []
      ∨ (cleanup m).normals.length = (cleanup m).vertices.length := by
    by_cases h : (cleanup m).normals = []
    · exact Or.inl h
    · exact Or.inr (hinv.2.1 h)
  have htex : (cleanup m).texcoords = []
      ∨ (cleanup m).texcoords.length = (cleanup m).vertices.length := by
    by_cases h : (cleanup m).texcoords = []
    · exact Or.inl h
    · exact Or.inr (hinv.2.2 h)
  have hfix1 := removeDuplicatedVertices_fixed (cleanup m) hnd hfinite
  have hfix2 := removeIsolatedVertices_fixed (cleanup m) hkeep hcol hnor htex hm1vf.1
  have hsurv : survivorCount (cleanup m).vertices = (cleanup m).vertices.length :=
    List.countP_eq_length.mpr hkeep
  refine ⟨hfix1.1, hfix1.2, hsurv, hfix2, ?_⟩
  show removeIsolatedVertices (removeDuplicatedVertices (cleanup m)) = cleanup m
  rw [hfix1.1, hfix2]

/-- C4 witness: at the concrete duplicated-vertex mesh, both passes run
twice equal the single run, and the second run is duplicate-free. -/
theorem cleanup_idempotent_witness :
    cleanup (cleanup dupMesh) = cleanup dupMesh ∧
    dedupAliasMap (cleanup dupMesh) = [] :=
  ⟨(cleanup_idempotent dupMesh (by decide) (by decide) (by decide)).2.2.2.2,
   (cleanup_idempotent dupMesh (by decide) (by decide) (by decide)).2.1⟩

end Nestk
